import Mathlib

/-!
Verification development for the branch-and-cut callback engine of a VNF
placement solver (`src/solver/callback.cpp` and friends).

The embedding translates the C++ callback code into executable Lean
definitions over exact rationals:

* a candidate 0/1 assignment of one demand is a function
  `xs : ℕ → ℕ → Bool` (position in the chain, node id);
* fractional snapshots are functions into `ℚ`;
* the hidden loop state (remaining capacities, PRNG, counters) is passed
  explicitly;
* the C++ `while` loops that are not structurally recursive take an
  explicit fuel argument.

Definitions carry the names of the C++ functions they embed where Lean
allows it.  Components of the repository that are referenced by
`callback.cpp` but whose sources are not available (`Data`,
`tools/others.hpp`, the C library PRNG) are modelled from the
specification and marked as such in their doc comments.
-/

namespace FiveG

/-- Tolerance `EPS = 1e-4` from `callback.hpp`. -/
def EPS : ℚ := 1 / 10000

/-- Tolerance `EPSILON = 1e-6` from `callback.hpp`. -/
def EPSILON : ℚ := 1 / 1000000

/-! ### Availability of a candidate assignment (one demand)

`Callback::getAvailabilityOfSection` multiplies `1 - a(v)` over the nodes
`v` assigned to the section; the availability is one minus that product.
The chain availability is the product of the section availabilities
(`Data::getChainAvailability`, modelled from the spec: "Availability
combines multiplicatively across chain sections"). -/

/-- Failure probability of section `i` under assignment `xs`:
product over assigned nodes of `1 - a v` (loop body of
`Callback::getAvailabilityOfSection`). -/
def secFailProb (N : ℕ) (a : ℕ → ℚ) (xs : ℕ → ℕ → Bool) (i : ℕ) : ℚ :=
  ∏ v ∈ Finset.range N, (if xs i v then 1 - a v else 1)

/-- Availability of section `i` (`Callback::getAvailabilityOfSection`). -/
def secAvail (N : ℕ) (a : ℕ → ℚ) (xs : ℕ → ℕ → Bool) (i : ℕ) : ℚ :=
  1 - secFailProb N a xs i

/-- True chain availability of one demand with `nbSec` sections. -/
def chainAvail (N : ℕ) (a : ℕ → ℚ) (xs : ℕ → ℕ → Bool) (nbSec : ℕ) : ℚ :=
  ∏ i ∈ Finset.range nbSec, secAvail N a xs i

/-- `Callback::getAvailabilitiesOfSections`: the list of
(section id, availability) records, in section order. -/
def secRecords (N : ℕ) (a : ℕ → ℚ) (xs : ℕ → ℕ → Bool) (nbSec : ℕ) :
    List (ℕ × ℚ) :=
  (List.range nbSec).map fun i => (i, secAvail N a xs i)

/-! ### Sorting the records

`addLazyConstraints` sorts the records ascending by availability with
`std::sort` and `compareAvailability`.  `std::sort` guarantees a sorted
permutation (the order of ties is unspecified); insertion sort below is
one refinement of that contract, used for the executable wrapper, while
the theorems quantify over every sorted permutation. -/

/-- Insert a record into an availability-ascending list. -/
def insertAsc (e : ℕ × ℚ) : List (ℕ × ℚ) → List (ℕ × ℚ)
  | [] => [e]
  | f :: rest => if e.2 ≤ f.2 then e :: f :: rest else f :: insertAsc e rest

/-- Sort records ascending by availability (refinement of `std::sort`
with `compareAvailability`). -/
def sortAsc : List (ℕ × ℚ) → List (ℕ × ℚ)
  | [] => []
  | e :: rest => insertAsc e (sortAsc rest)

/-! ### The violating prefix search

The `while` loop of `addLazyConstraints` accumulates the running product
of sorted section availabilities while it stays at or above the required
availability and sections remain. -/

/-- The scan loop of `addLazyConstraints`: returns the final running
product and the number of consumed records. -/
def findViolPre (req : ℚ) : List (ℕ × ℚ) → ℚ → ℕ → ℚ × ℕ
  | [], acc, n => (acc, n)
  | e :: rest, acc, n =>
    if req ≤ acc then findViolPre req rest (acc * e.2) (n + 1) else (acc, n)

/-! ### Lifting (`Callback::lift`)

State: the (mutated) assignment plus the sorted record list whose first
`nbSel` entries track the availabilities of the lifted assignment. -/

/-- State mutated by `Callback::lift`. -/
structure LiftSt where
  xs : ℕ → ℕ → Bool
  sa : List (ℕ × ℚ)

/-- Default record used for out-of-range indexing. -/
def dRec : ℕ × ℚ := (0, 0)

/-- `futureAvailability` computed in the inner loop of `Callback::lift`:
the product of the first `nbSel` tracked availabilities with node `v`
added to the entry at position `s`. -/
def liftFuture (a : ℕ → ℚ) (sa : List (ℕ × ℚ)) (nbSel s v : ℕ) : ℚ :=
  ∏ j ∈ Finset.range nbSel,
    (if j = s then 1 - (1 - (sa.getD j dRec).2) * (1 - a v)
     else (sa.getD j dRec).2)

/-- Body of the node loop of `Callback::lift`. -/
def liftNode (a : ℕ → ℚ) (req : ℚ) (nbSel s : ℕ) (st : LiftSt) (v : ℕ) :
    LiftSt :=
  let i := (st.sa.getD s dRec).1
  if st.xs i v then st
  else
    if liftFuture a st.sa nbSel s v < req then
      { xs := fun i' v' => if i' = i ∧ v' = v then true else st.xs i' v'
        sa := st.sa.set s
          (i, 1 - (1 - (st.sa.getD s dRec).2) * (1 - a v)) }
    else st

/-- The node loop of `Callback::lift` for the entry at position `s`. -/
def liftSec (N : ℕ) (a : ℕ → ℚ) (req : ℚ) (nbSel s : ℕ) (st : LiftSt) :
    LiftSt :=
  (List.range N).foldl (liftNode a req nbSel s) st

/-- `Callback::lift`: iterate over the first `nbSel` sorted entries. -/
def lift (N : ℕ) (a : ℕ → ℚ) (req : ℚ) (nbSel : ℕ) (st : LiftSt) : LiftSt :=
  (List.range nbSel).foldl (fun st s => liftSec N a req nbSel s st) st

/-! ### The per-demand lazy-constraint step -/

/-- A nogood rejecting a candidate: the sum of the variables
`x[k, i, v]` over `vars` must be at least one. -/
structure Nogood where
  vars : List (ℕ × ℕ)

/-- A 0/1 assignment satisfies a nogood when it sets at least one of its
variables. -/
def Nogood.satBy (ng : Nogood) (z : ℕ → ℕ → Bool) : Prop :=
  ∃ p ∈ ng.vars, z p.1 p.2 = true

instance (ng : Nogood) (z : ℕ → ℕ → Bool) : Decidable (ng.satBy z) :=
  List.decidableBEx _ ng.vars

/-- Variables of the emitted nogood: for each of the first `nbSel`
entries, every node the (lifted) assignment leaves unassigned in that
entry's section. -/
def lazyCutVars (N : ℕ) (st : LiftSt) (nbSel : ℕ) : List (ℕ × ℕ) :=
  (List.range nbSel).flatMap fun s =>
    let i := (st.sa.getD s dRec).1
    (List.range N).filterMap fun v =>
      if st.xs i v then none else some (i, v)

/-- The body of the per-demand loop of `Callback::addLazyConstraints`,
taking the sorted record list as a parameter: scan for the violating
prefix; if found, lift, then emit the nogood over the unassigned
positions of the prefix. -/
def addLazyDemandSorted (N : ℕ) (a : ℕ → ℚ) (req : ℚ)
    (xs : ℕ → ℕ → Bool) (sorted : List (ℕ × ℚ)) : Option Nogood :=
  let fp := findViolPre req sorted 1 0
  if fp.1 < req then
    let st := lift N a req fp.2 { xs := xs, sa := sorted }
    some ⟨lazyCutVars N st fp.2⟩
  else none

/-- The per-demand step of `Callback::addLazyConstraints`, with the
records sorted by insertion sort. -/
def addLazyDemand (N : ℕ) (a : ℕ → ℚ) (req : ℚ) (nbSec : ℕ)
    (xs : ℕ → ℕ → Bool) : Option Nogood :=
  addLazyDemandSorted N a req xs (sortAsc (secRecords N a xs nbSec))

/-- Invariant maintained by `Callback::lift` over the state it
mutates: the record list keeps its length and section ids, each of the
first `nbSel` tracked availabilities is the true availability of its
section under the current assignment, the product of the first `nbSel`
tracked availabilities stays strictly below the requirement (a
position is placed only when the chain would remain below it), and the
assignment only grows. -/
def LiftInv (N : ℕ) (a : ℕ → ℚ) (req : ℚ) (xs0 : ℕ → ℕ → Bool)
    (sorted : List (ℕ × ℚ)) (nbSel : ℕ) (st : LiftSt) : Prop :=
  st.sa.length = sorted.length ∧
  (∀ s, (st.sa.getD s dRec).1 = (sorted.getD s dRec).1) ∧
  (∀ s < nbSel, (st.sa.getD s dRec).2 =
    secAvail N a st.xs (st.sa.getD s dRec).1) ∧
  (∏ s ∈ Finset.range nbSel, (st.sa.getD s dRec).2) < req ∧
  (∀ i v, xs0 i v = true → st.xs i v = true)

/-! ### Instance data

The `Data` collaborator (`data.hpp` / `data.cpp`) is not part of the
sources; its interface is modelled from the spec (§3 data model, §6
external interfaces).  Nodes and VNF types are indexed `0, …, n-1`. -/

/-- Modelled from the spec: one demand (SFC) — ordered VNF-type sequence,
bandwidth and required end-to-end availability. -/
structure Sfc where
  vnfs : List ℕ
  bandwidth : ℚ
  reqAvail : ℚ

/-- Default demand for out-of-range indexing. -/
def dSfc : Sfc := ⟨[], 0, 0⟩

/-- The on/off options of `Input` consumed by the callback
(`input.hpp`). -/
structure InputOpts where
  heuristicOn : Bool
  approxNone : Bool
  nodeCoverOn : Bool
  chainCoverOn : Bool
  vnfLowerBoundCutsOn : Bool
  sectionFailureCutsOn : Bool
  availUsercutsOn : Bool

/-- Modelled from the spec: the read-only instance data served by the
`Data` collaborator (not under the available sources).  `availRank` is
the precomputed availability-descending node ordering; `vnfLBOne` and
`vnfLBSet` are the availability-bound helpers `Data::getVnfLB` (whole
node set and restricted-subset forms), kept abstract because their
bodies are not available and the verified claims do not depend on their
values; `extraPoolVnfLB` and `extraPoolSecFail` stand for the pool cuts
of the VNF-lower-bound and section-failure families, whose coefficients
involve the abstract bound helper and real logarithms. -/
structure NetData where
  nbNodes : ℕ
  avail : ℕ → ℚ
  cap : ℕ → ℚ
  nbVnfs : ℕ
  consumption : ℕ → ℚ
  placementCost : ℕ → ℕ → ℚ
  demands : List Sfc
  availRank : List ℕ
  vnfLBOne : ℚ → ℕ → ℤ
  vnfLBSet : (ℕ → Bool) → ℕ → ℚ → ℚ
  extraPoolVnfLB : List (ℚ × List ((ℕ × ℕ × ℕ) × ℚ))
  extraPoolSecFail : List (ℚ × List ((ℕ × ℕ × ℕ) × ℚ))
  opts : InputOpts

/-- `Data::getNbDemands`. -/
def NetData.nbDemands (D : NetData) : ℕ := D.demands.length

/-- `Data::getDemand`. -/
def NetData.demand (D : NetData) (k : ℕ) : Sfc := D.demands.getD k dSfc

/-- `Demand::getNbVNFs` for demand `k`. -/
def NetData.nbSec (D : NetData) (k : ℕ) : ℕ := (D.demand k).vnfs.length

/-- Modelled from the spec: `Data::getNodeRankPosition` — the position
of node `v` in the availability-descending order. -/
def NetData.rankPos (D : NetData) (v : ℕ) : ℕ := D.availRank.indexOf v

/-- `Demand::getBandwidth * Vnf::getConsumption` for section `i` of
demand `k` (the `req_capacity` of the heuristic). -/
def NetData.reqCap (D : NetData) (k i : ℕ) : ℚ :=
  (D.demand k).bandwidth * D.consumption ((D.demand k).vnfs.getD i 0)

/-! ### Minimum node count (`Data::getMinNbNodes`)

Modelled from the spec (§2 AvailabilityMath, §4.1): "minimum node count
needed at availability ≥ a(v) to reach k's SLA", i.e. the least `n` with
`1 - (1-a)^n ≥ target`.  The search is a bounded linear scan whose fuel
is a Bernoulli-inequality bound large enough whenever `0 < a ≤ 1` and
`target < 1`. -/

/-- Bounded scan for the least `n` with `target ≤ 1 - (1-a)^n`. -/
def minNbNodesAux (target a : ℚ) : ℕ → ℕ → ℕ
  | 0, n => n
  | fuel + 1, n =>
    if target ≤ 1 - (1 - a) ^ n then n else minNbNodesAux target a fuel (n + 1)

/-- Fuel bound for `minNbNodes`, sufficient by Bernoulli's inequality. -/
def minNbNodesFuel (target a : ℚ) : ℕ :=
  ⌈(1 - a) / ((1 - target) * a)⌉₊ + 2

/-- Modelled from the spec: `Data::getMinNbNodes` — the minimum number
of nodes, each of availability at least `a`, whose parallel availability
reaches `target`. -/
def minNbNodes (target a : ℚ) : ℕ :=
  minNbNodesAux target a (minNbNodesFuel target a) 0

/-- The coefficient table `c[v]` computed per demand in
`Callback::addAvailabilityCoverConstraints`. -/
def coverC (D : NetData) (k v : ℕ) : ℕ :=
  minNbNodes (D.demand k).reqAvail (D.avail v)

/-! ### Node-cover cuts (`Callback::addAvailabilityCoverConstraints`) -/

/-- One node-cover cut `Σ coeff(j)·x[demand, sec, j] ≥ rhs`, tagged by
the node `v` that generated it. -/
structure CoverCut where
  demand : ℕ
  sec : ℕ
  node : ℕ
  rhs : ℤ
  coeff : ℕ → ℤ

/-- Coefficient of `x[k, i, j]` in the cut generated by node `v`
(inner loop of `addAvailabilityCoverConstraints`). -/
def coverCoeff (D : NetData) (k v j : ℕ) : ℤ :=
  if D.rankPos j < D.rankPos v then
    max ((coverC D k v : ℤ) - (coverC D k j : ℤ) + 1) 1
  else 1

/-- `Callback::addAvailabilityCoverConstraints`: for every demand,
section and node of positive rank position, emit the cut iff `c(v)`
exceeds `c` of the preceding rank position. -/
def nodeCoverCuts (D : NetData) : List CoverCut :=
  (List.range D.nbDemands).flatMap fun k =>
    (List.range (D.nbSec k)).flatMap fun i =>
      (List.range D.nbNodes).filterMap fun v =>
        if 0 < D.rankPos v ∧
            coverC D k (D.availRank.getD (D.rankPos v - 1) 0) < coverC D k v
        then some ⟨k, i, v, (coverC D k v : ℤ), fun j => coverCoeff D k v j⟩
        else none

/-! ### The cut pool and its check (`Callback::checkCutPool`) -/

/-- A pool cut `lb ≤ Σ coeff·x ≤ ub` (`ub = none` means `+∞`); the
variables are the assignment triples `(k, i, v)`. -/
structure PoolCut where
  lb : ℚ
  terms : List ((ℕ × ℕ × ℕ) × ℚ)
  ub : Option ℚ

/-- Default pool cut for out-of-range indexing. -/
def dPool : PoolCut := ⟨0, [], none⟩

/-- Value of a cut's expression at a snapshot
(`context.getRelaxationValue(cut.getExpr())`). -/
def cutLHS (snap : ℕ × ℕ × ℕ → ℚ) (c : PoolCut) : ℚ :=
  (c.terms.map fun t => t.2 * snap t.1).sum

/-- The violation test of `checkCutPool`:
`LHS < LB - EPS || LHS > UB + EPS`. -/
def cutViolated (snap : ℕ × ℕ × ℕ → ℚ) (c : PoolCut) : Bool :=
  decide (cutLHS snap c < c.lb - EPS) ||
    (match c.ub with
     | none => false
     | some u => decide (u + EPS < cutLHS snap c))

/-- `Callback::checkCutPool`: one pass over the pool, submitting every
violated cut (returned as its pool index, in pool order) and reporting
whether any was found.  The pool itself is never modified. -/
def checkCutPool (pool : List PoolCut) (snap : ℕ × ℕ × ℕ → ℚ) :
    List ℕ × Bool :=
  (List.range pool.length).foldl
    (fun acc i =>
      if cutViolated snap (pool.getD i dPool) then (acc.1 ++ [i], true)
      else acc)
    ([], false)

/-- The node-cover cut of `CoverCut` form as a pool cut over the `x`
variables of its demand/section. -/
def coverToPool (D : NetData) (c : CoverCut) : PoolCut :=
  ⟨(c.rhs : ℚ),
   (List.range D.nbNodes).map fun j => ((c.demand, c.sec, j), (c.coeff j : ℚ)),
   none⟩

/-- `Callback::setCutPool`: the pool built once at construction.  The
node-cover family is materialised; the two other families are the
abstract pool segments carried by the instance data. -/
def setCutPool (D : NetData) : List PoolCut :=
  (if D.opts.nodeCoverOn then (nodeCoverCuts D).map (coverToPool D) else []) ++
  (if D.opts.vnfLowerBoundCutsOn then
    D.extraPoolVnfLB.map fun e => PoolCut.mk e.1 e.2 none else []) ++
  (if D.opts.sectionFailureCutsOn then
    D.extraPoolSecFail.map fun e => PoolCut.mk e.1 e.2 none else [])

/-! ### Fractional snapshots and sorted indexes -/

/-- Modelled from the spec: `getSortedIndexes_Asc` from
`tools/others.hpp` (not under the available sources) — the indexes of a
value vector sorted ascending by value. -/
def getSortedIndexes_Asc (vals : List ℚ) : List ℕ :=
  (sortAsc ((List.range vals.length).map fun i => (i, vals.getD i 0))).map
    Prod.fst

/-! ### Generalized cover separation
(`Callback::generalizedCoverSeparation`) -/

/-- A dynamically separated cut
`Σ coeff(i,v)·x[demand, i, v] ≥ bound`. -/
structure DynCut where
  demand : ℕ
  bound : ℚ
  terms : List ((ℕ × ℕ) × ℚ)

/-- The triple iteration space of `generalizedCoverSeparation`:
demand, probe node defining the favored set, prefix length
`1 ≤ p ≤ nbSec k`, in loop order. -/
def genCombos (D : NetData) : List (ℕ × ℕ × ℕ) :=
  (List.range D.nbDemands).flatMap fun k =>
    (List.range D.nbNodes).flatMap fun u =>
      (List.range (D.nbSec k)).map fun p => (k, u, p + 1)

/-- The favored set `U` of a probe node: nodes ranked at or below it. -/
def genSetU (D : NetData) (u v : ℕ) : Bool :=
  decide (D.rankPos u ≤ D.rankPos v)

/-- The weighted per-section masses `sum_over_nodes` of one
combination. -/
def genSums (D : NetData) (xf : ℕ → ℕ → ℕ → ℚ) (k u : ℕ) (rhs : ℚ)
    (i : ℕ) : ℚ :=
  ∑ v ∈ Finset.range D.nbNodes,
    (if genSetU D u v then xf k i v else rhs * xf k i v)

/-- The bound of one combination
(`Data::getVnfLB(set_U, nb_sections, avail)`). -/
def genBound (D : NetData) (k u p : ℕ) : ℚ :=
  D.vnfLBSet (genSetU D u) p (D.demand k).reqAvail

/-- Sum of the `p` smallest per-section masses of one combination. -/
def genLHS (D : NetData) (xf : ℕ → ℕ → ℕ → ℚ) (k u p : ℕ) : ℚ :=
  let rhs := genBound D k u p
  let sums := (List.range (D.nbSec k)).map (genSums D xf k u rhs)
  let sorted := getSortedIndexes_Asc sums
  ((List.range p).map fun j => sums.getD (sorted.getD j 0) 0).sum

/-- The violation test of one combination: non-negative bound and
left-hand side below the bound by more than `EPS`. -/
def genViolated (D : NetData) (xf : ℕ → ℕ → ℕ → ℚ) (c : ℕ × ℕ × ℕ) :
    Bool :=
  let (k, u, p) := c
  let rhs := genBound D k u p
  decide (0 ≤ rhs) && decide (genLHS D xf k u p < rhs - EPS)

/-- The cut emitted for a violated combination: coefficient 1 inside
`U`, the bound outside, over the `p` lowest-mass sections. -/
def mkGenCut (D : NetData) (xf : ℕ → ℕ → ℕ → ℚ) (c : ℕ × ℕ × ℕ) :
    DynCut :=
  let (k, u, p) := c
  let rhs := genBound D k u p
  let sums := (List.range (D.nbSec k)).map (genSums D xf k u rhs)
  let sorted := getSortedIndexes_Asc sums
  ⟨k, rhs,
   (List.range p).flatMap fun j =>
     let i := sorted.getD j 0
     (List.range D.nbNodes).map fun v =>
       ((i, v), if genSetU D u v then 1 else rhs)⟩

/-- The nested loops of `generalizedCoverSeparation` with their early
`return`: scan the combinations in loop order, emit on the first
violated one. -/
def genCoverLoop (D : NetData) (xf : ℕ → ℕ → ℕ → ℚ) :
    List (ℕ × ℕ × ℕ) → Option DynCut
  | [] => none
  | c :: rest =>
    if genViolated D xf c then some (mkGenCut D xf c)
    else genCoverLoop D xf rest

/-- `Callback::generalizedCoverSeparation`. -/
def generalizedCoverSeparation (D : NetData) (xf : ℕ → ℕ → ℕ → ℚ) :
    Option DynCut :=
  genCoverLoop D xf (genCombos D)

/-! ### Chain cover separation (`Callback::chainCoverSeparation`) -/

/-- Per-section variable mass `Σ_v x[k,i,v]` of the snapshot. -/
def chainSums (D : NetData) (xf : ℕ → ℕ → ℕ → ℚ) (k i : ℕ) : ℚ :=
  ∑ v ∈ Finset.range D.nbNodes, xf k i v

/-- The inner loop of `chainCoverSeparation` for demand `k`: first
prefix length whose mass is below the bound, if any (then `break`). -/
def chainCoverDemand (D : NetData) (xf : ℕ → ℕ → ℕ → ℚ) (k : ℕ) :
    Option DynCut :=
  let sums := (List.range (D.nbSec k)).map (chainSums D xf k)
  let sorted := getSortedIndexes_Asc sums
  let lhs := fun p : ℕ => ((List.range p).map fun j =>
    sums.getD (sorted.getD j 0) 0).sum
  let rhs := fun p : ℕ => ((D.vnfLBOne (D.demand k).reqAvail p : ℤ) : ℚ)
  match ((List.range (D.nbSec k)).map (· + 1)).find?
      (fun p => decide (lhs p < rhs p - EPS)) with
  | none => none
  | some p =>
    some ⟨k, rhs p,
      (List.range p).flatMap fun j =>
        let i := sorted.getD j 0
        (List.range D.nbNodes).map fun v => ((i, v), 1)⟩

/-- `Callback::chainCoverSeparation`: one cut per demand at most. -/
def chainCoverSeparation (D : NetData) (xf : ℕ → ℕ → ℕ → ℚ) :
    List DynCut :=
  (List.range D.nbDemands).filterMap (chainCoverDemand D xf)

/-! ### Heuristic availability separation
(`Callback::heuristicSeparationOfAvailibilityConstraints`) -/

/-- Greedy state of the availability-cut heuristic for one demand:
coefficient matrix (1 = still in the cut, 0 = treated as placed),
tracked per-section availabilities, and the tracked chain
availability. -/
structure HeurSepSt where
  coeff : ℕ → ℕ → ℕ
  sa : ℕ → ℚ
  chain : ℚ

/-- Initial coefficient row of section `i`
(`Callback::initiateHeuristic`): nodes placed at value `≥ 1 - EPS` get
coefficient 0; if none, the node maximizing `x/availability` does. -/
def initCoeffRow (D : NetData) (xf : ℕ → ℕ → ℕ → ℚ) (k i : ℕ) :
    ℕ → ℕ :=
  let placed := (List.range D.nbNodes).filter fun v =>
    decide (1 - EPS ≤ xf k i v)
  if placed.isEmpty then
    let sel := ((List.range D.nbNodes).foldl
      (fun (acc : ℤ × ℚ) v =>
        if acc.2 < xf k i v / D.avail v then ((v : ℤ), xf k i v / D.avail v)
        else acc)
      (-1, -1)).1
    fun v => if (v : ℤ) = sel then 0 else 1
  else fun v => if decide (1 - EPS ≤ xf k i v) ∧ v < D.nbNodes then 0 else 1

/-- Modelled from the spec: `Data::getFailureProb` of the set of
coefficient-0 nodes of a section — the product of their
unavailabilities. -/
def initSecAvail (D : NetData) (coeffRow : ℕ → ℕ) : ℚ :=
  1 - ∏ v ∈ Finset.range D.nbNodes,
    (if coeffRow v = 0 then 1 - D.avail v else 1)

/-- `Callback::initiateHeuristic` for demand `k`. -/
def initiateHeuristic (D : NetData) (xf : ℕ → ℕ → ℕ → ℚ) (k : ℕ) :
    HeurSepSt :=
  let coeff := fun i => initCoeffRow D xf k i
  let sa := fun i => initSecAvail D (coeff i)
  { coeff := fun i v => if i < D.nbSec k ∧ v < D.nbNodes then coeff i v else 1
    sa := sa
    chain := ∏ i ∈ Finset.range (D.nbSec k), sa i }

/-- `Callback::computeDeltaAvailability` for one position (called with
the required availability as base, as in the code). -/
def deltaAvail (D : NetData) (req : ℚ) (st : HeurSepSt) (i v : ℕ) : ℚ :=
  if st.coeff i v = 0 then 10
  else
    let newSec := 1 - (1 - st.sa i) * (1 - D.avail v)
    req / st.sa i * newSec - req

/-- One candidate search of the greedy loop: the position of best
`x/delta` ratio among those whose inclusion keeps the chain below the
requirement (loop order: sections, then nodes; strict improvement). -/
def heurSepPick (D : NetData) (xf : ℕ → ℕ → ℕ → ℚ) (req : ℚ) (k : ℕ)
    (st : HeurSepSt) : Option (ℕ × ℕ) :=
  let step := fun (acc : Option (ℕ × ℕ) × ℚ) (p : ℕ × ℕ) =>
    if st.chain + deltaAvail D req st p.1 p.2 < req ∧
        acc.2 < xf k p.1 p.2 / deltaAvail D req st p.1 p.2 then
      (some p, xf k p.1 p.2 / deltaAvail D req st p.1 p.2)
    else acc
  (((List.range (D.nbSec k)).flatMap fun i =>
      (List.range D.nbNodes).map fun v => (i, v)).foldl step
    (none, -1)).1

/-- The greedy `while` loop of the availability-cut heuristic, with
explicit fuel (each iteration zeroes one coefficient, so
`nbSec·nbNodes + 1` steps always suffice in the code). -/
def heurSepLoop (D : NetData) (xf : ℕ → ℕ → ℕ → ℚ) (req : ℚ) (k : ℕ) :
    ℕ → HeurSepSt → HeurSepSt
  | 0, st => st
  | fuel + 1, st =>
    match heurSepPick D xf req k st with
    | none => st
    | some (i, v) =>
      heurSepLoop D xf req k fuel
        { coeff := fun i' v' => if i' = i ∧ v' = v then 0 else st.coeff i' v'
          sa := fun i' =>
            if i' = i then 1 - (1 - st.sa i) * (1 - D.avail v) else st.sa i'
          chain := st.chain + deltaAvail D req st i v }

/-- Per-demand body of
`heuristicSeparationOfAvailibilityConstraints`. -/
def heurSepDemand (D : NetData) (xf : ℕ → ℕ → ℕ → ℚ) (fuel k : ℕ) :
    Option DynCut :=
  let st0 := initiateHeuristic D xf k
  let req := (D.demand k).reqAvail
  if st0.chain < req then
    let st := heurSepLoop D xf req k fuel st0
    let lhs := ∑ i ∈ Finset.range (D.nbSec k),
      ∑ v ∈ Finset.range D.nbNodes, (st.coeff i v : ℚ) * xf k i v
    if lhs < 1 - EPS then
      some ⟨k, 1,
        (List.range (D.nbSec k)).flatMap fun i =>
          (List.range D.nbNodes).filterMap fun v =>
            if st.coeff i v = 1 then some ((i, v), 1) else none⟩
    else none
  else none

/-- `Callback::heuristicSeparationOfAvailibilityConstraints`. -/
def heurSep (D : NetData) (xf : ℕ → ℕ → ℕ → ℚ) (fuel : ℕ) :
    List DynCut :=
  (List.range D.nbDemands).filterMap (heurSepDemand D xf fuel)

/-! ### The PRNG and the matheuristic

The callback uses the C library `srand`/`rand`, which are outside the
repository.  Modelled from the spec (§4.3 "draw uniform[0,1]",
design note §9 on seeding): a deterministic linear-congruential state
machine; draws are numbers in `[0, 1]`. -/

/-- The hard-coded seed of the callback constructor. -/
def SEED : ℕ := 20102019

/-- Modelled from the spec: one step of the C library PRNG (a
deterministic LCG on 31 bits). -/
def prngNext (s : ℕ) : ℕ := (1103515245 * s + 12345) % 2147483648

/-- One uniform draw `rand() / RAND_MAX ∈ [0,1]` together with the next
PRNG state. -/
def draw (s : ℕ) : ℚ × ℕ :=
  ((prngNext s % 2147483647 : ℕ) / (2147483647 : ℚ), prngNext s)

/-- Mutable heuristic state of the callback (`ySol`, `xSol`, `objSol`,
`remainingCapacity`) plus the PRNG state. -/
structure HeurSt where
  ySol : ℕ → ℕ → Bool
  xSol : ℕ → ℕ → ℕ → Bool
  objSol : ℚ
  remCap : ℕ → ℚ
  rng : ℕ

/-- The fractional point and objective information served by a
relaxation event. -/
structure RelaxInfo where
  xf : ℕ → ℕ → ℕ → ℚ
  yf : ℕ → ℕ → ℚ
  relaxObj : ℚ
  incumbent : ℚ

/-- The candidate information of a candidate event (`isPoint = false`
models an unbounded ray). -/
structure CandInfo where
  isPoint : Bool
  xc : ℕ → ℕ → ℕ → Bool

/-- Events delivered by the host; `other` stands for any context id
that is neither `Relaxation` nor `Candidate`. -/
inductive Event
  | relaxation (r : RelaxInfo)
  | candidate (c : CandInfo)
  | other

/-- Placement step of `runHeuristic_Phase_I` for one `(node, vnf)`
pair. -/
def phase1yStep (D : NetData) (r : RelaxInfo) (st : HeurSt)
    (p : ℕ × ℕ) : HeurSt :=
  let v := p.1
  let f := p.2
  let rnd := (draw st.rng).1
  let rng' := (draw st.rng).2
  if rnd ≤ r.yf v f then
    { st with
      ySol := fun v' f' => if v' = v ∧ f' = f then true else st.ySol v' f'
      objSol := st.objSol + D.placementCost v f
      rng := rng' }
  else
    { st with
      ySol := fun v' f' => if v' = v ∧ f' = f then false else st.ySol v' f'
      rng := rng' }

/-- Assignment step of `runHeuristic_Phase_I` for one
`(demand, section)` pair at node `v`. -/
def phase1xStep (D : NetData) (r : RelaxInfo) (v : ℕ) (st : HeurSt)
    (p : ℕ × ℕ) : HeurSt :=
  let k := p.1
  let i := p.2
  let f := (D.demand k).vnfs.getD i 0
  if st.ySol v f = true ∧ D.reqCap k i ≤ st.remCap v then
    let rnd := (draw st.rng).1
    let rng' := (draw st.rng).2
    if rnd ≤ r.xf k i v then
      { st with
        xSol := fun k' i' v' =>
          if k' = k ∧ i' = i ∧ v' = v then true else st.xSol k' i' v'
        remCap := fun v' =>
          if v' = v then st.remCap v - D.reqCap k i else st.remCap v'
        rng := rng' }
    else
      { st with
        xSol := fun k' i' v' =>
          if k' = k ∧ i' = i ∧ v' = v then false else st.xSol k' i' v'
        rng := rng' }
  else
    { st with
      xSol := fun k' i' v' =>
        if k' = k ∧ i' = i ∧ v' = v then false else st.xSol k' i' v' }

/-- The `(demand, section)` pairs in iteration order. -/
def demandSecPairs (D : NetData) : List (ℕ × ℕ) :=
  (List.range D.nbDemands).flatMap fun k =>
    (List.range (D.nbSec k)).map fun i => (k, i)

/-- The per-node block of the assignment loop of
`runHeuristic_Phase_I`: reset the node's remaining capacity, then
process every `(demand, section)` pair. -/
def phase1NodeBlock (D : NetData) (r : RelaxInfo) (st : HeurSt) (v : ℕ) :
    HeurSt :=
  (demandSecPairs D).foldl (phase1xStep D r v)
    { st with remCap := fun v' => if v' = v then D.cap v else st.remCap v' }

/-- `Callback::runHeuristic_Phase_I`. -/
def runHeuristic_Phase_I (D : NetData) (r : RelaxInfo) (st : HeurSt) :
    HeurSt :=
  let st1 := ((List.range D.nbNodes).flatMap fun v =>
    (List.range D.nbVnfs).map fun f => (v, f)).foldl (phase1yStep D r)
    { st with objSol := 0 }
  (List.range D.nbNodes).foldl (phase1NodeBlock D r) st1

/-- `Callback::getSolutionAvail_k`: chain availability of the stored
solution and (the index of) its least available section (`-1` when
every section has availability `1`). -/
def getSolutionAvail_k (D : NetData) (xs : ℕ → ℕ → ℕ → Bool) (k : ℕ) :
    ℚ × ℤ :=
  let res := (List.range (D.nbSec k)).foldl
    (fun (acc : ℚ × ℚ × ℤ) i =>
      let sAvail := secAvail D.nbNodes D.avail (xs k) i
      let acc' := if sAvail < acc.2.1 then (acc.1, sAvail, (i : ℤ))
        else acc
      (acc'.1 * sAvail, acc'.2))
    (1, 1, -1)
  (res.1, res.2.2)

/-- The `ADDITIONAL_COST` of installing VNF `f` on node `v`:
`placementCost · (1 - ySol)`. -/
def addCost (D : NetData) (st : HeurSt) (f v : ℕ) : ℚ :=
  if st.ySol v f then 0 else D.placementCost v f

/-- One candidate examination of `Callback::getNodeToInstall`: the
accumulator is the selected node, the minimum additional cost
(`none` = `IloInfinity`) and the best remaining capacity. -/
def gntiStep (D : NetData) (st : HeurSt) (f k : ℕ)
    (acc : Option ℕ × Option ℚ × ℚ) (v : ℕ) : Option ℕ × Option ℚ × ℚ :=
  if (D.demand k).bandwidth * D.consumption f ≤ st.remCap v then
    match acc.2.1 with
    | none => (some v, some (addCost D st f v), st.remCap v)
    | some m =>
      if addCost D st f v ≤ m + EPSILON then
        if addCost D st f v ≤ m - EPSILON then
          (some v, some (addCost D st f v), st.remCap v)
        else if acc.2.2 + EPSILON ≤ st.remCap v then
          (some v, some (addCost D st f v), st.remCap v)
        else acc
      else acc
  else acc

/-- `Callback::getNodeToInstall`: among capacitied nodes, minimize the
additional placement cost (with `EPSILON` slack), tie-breaking by
larger remaining capacity; `none` models the return value `-1`. -/
def getNodeToInstall (D : NetData) (st : HeurSt) (f k : ℕ) : Option ℕ :=
  ((List.range D.nbNodes).foldl (gntiStep D st f k) (none, none, 0)).1

/-- The `while` loop of `runHeuristic_Phase_II` for one demand, with
explicit fuel standing for the unbounded C++ loop; returns the success
flag and the state reached. -/
def phase2Demand (D : NetData) (k : ℕ) : ℕ → HeurSt → Bool × HeurSt
  | 0, st => (false, st)
  | fuel + 1, st =>
    let avail := (getSolutionAvail_k D st.xSol k).1
    let least := (getSolutionAvail_k D st.xSol k).2
    if avail < (D.demand k).reqAvail then
      let i := least.toNat
      let f := (D.demand k).vnfs.getD i 0
      match getNodeToInstall D st f k with
      | none => (false, st)
      | some v =>
        let st' :=
          { st with
            xSol := fun k' i' v' =>
              if k' = k ∧ i' = i ∧ v' = v then true else st.xSol k' i' v'
            remCap := fun v' =>
              if v' = v then
                st.remCap v - (D.demand k).bandwidth * D.consumption f
              else st.remCap v' }
        let st'' :=
          if st'.ySol v f then st'
          else
            { st' with
              ySol := fun v' f' =>
                if v' = v ∧ f' = f then true else st'.ySol v' f'
              objSol := st'.objSol + D.placementCost v f }
        phase2Demand D k fuel st''
    else (true, st)

/-- `Callback::runHeuristic_Phase_II`: repair each demand in turn,
aborting on the first demand that cannot be repaired. -/
def runHeuristic_Phase_II (D : NetData) (fuel : ℕ) (st : HeurSt) :
    Bool × HeurSt :=
  (List.range D.nbDemands).foldl
    (fun acc k => if acc.1 then phase2Demand D k fuel acc.2 else acc)
    (true, st)

/-- A heuristic solution posted to the host
(`Callback::insertHeuristicSolution`). -/
structure PostedSol where
  y : ℕ → ℕ → Bool
  x : ℕ → ℕ → ℕ → Bool
  obj : ℚ

/-- The objective recomputed from the placement inside
`insertHeuristicSolution`. -/
def postedObj (D : NetData) (st : HeurSt) : ℚ :=
  ∑ v ∈ Finset.range D.nbNodes, ∑ f ∈ Finset.range D.nbVnfs,
    D.placementCost v f * (if st.ySol v f then 1 else 0)

/-- `Callback::heuristicRule`: no draw when an approximated formulation
is active; otherwise a uniform draw against the relative gap. -/
def heuristicRule (D : NetData) (r : RelaxInfo) (rng : ℕ) : Bool × ℕ :=
  if D.opts.approxNone = false then (false, rng)
  else
    let lim := (r.incumbent - r.relaxObj) / r.incumbent
    (decide ((draw rng).1 ≤ lim), (draw rng).2)

/-- `Callback::runHeuristic`: trigger rule, Phase I, Phase II, then
post the solution when it improves the incumbent. -/
def runHeuristic (D : NetData) (fuel : ℕ) (r : RelaxInfo) (st : HeurSt) :
    HeurSt × Option PostedSol :=
  if D.opts.heuristicOn = false then (st, none)
  else
    let go := (heuristicRule D r st.rng).1
    let st0 := { st with rng := (heuristicRule D r st.rng).2 }
    if go = false then (st0, none)
    else
      let st1 := runHeuristic_Phase_I D r st0
      let isFeasible := (runHeuristic_Phase_II D fuel st1).1
      let st2 := (runHeuristic_Phase_II D fuel st1).2
      if isFeasible ∧ st2.objSol < r.incumbent then
        (st2, some ⟨st2.ySol, st2.xSol, postedObj D st2⟩)
      else (st2, none)

/-! ### The callback dispatcher (`Callback::invoke`) -/

/-- A cut submitted to the host during one invocation, tagged by the
routine that produced it; pool cuts are identified by their pool
index. -/
inductive SubmittedCut
  | fromPool (idx : ℕ)
  | genCover (c : DynCut)
  | chainCover (c : DynCut)
  | heurAvail (c : DynCut)

/-- The shared mutable state of the callback: the write-once cut pool
and the counters, plus the heuristic buffers and PRNG. -/
structure CbState where
  pool : List PoolCut
  nbCuts : ℕ
  nbLazyConstraints : ℕ
  nbCutsAvailHeuristic : ℕ
  heur : HeurSt

/-- The diagnostics thrown by the callback
(`IloCplex::Exception` messages). -/
inductive CbError
  | unexpectedContextId
  | unboundedCandidate
  | notCandidateContext
  | notRelaxationContext

/-- `Callback::getIntegerSolution`: the candidate 0/1 point, or a
diagnostic when the event is no candidate or carries an unbounded
solution. -/
def getIntegerSolution (e : Event) :
    Except CbError (ℕ → ℕ → ℕ → Bool) :=
  match e with
  | .candidate c =>
    if c.isPoint then .ok c.xc else .error .unboundedCandidate
  | _ => .error .notCandidateContext

/-- `Callback::getFractionalSolution`. -/
def getFractionalSolution (e : Event) :
    Except CbError (ℕ → ℕ → ℕ → ℚ) :=
  match e with
  | .relaxation r => .ok r.xf
  | _ => .error .notRelaxationContext

/-- `Callback::addUserCuts`: check the pool; only when it yields
nothing, run the dynamic separations enabled by the options.  Every
submission increments the user-cut counter once (the availability
heuristic additionally increments its own counter). -/
def addUserCuts (D : NetData) (fuel : ℕ) (st : CbState) (r : RelaxInfo) :
    CbState × List SubmittedCut :=
  let snap := fun t : ℕ × ℕ × ℕ => r.xf t.1 t.2.1 t.2.2
  let poolIdx := (checkCutPool st.pool snap).1
  let found := (checkCutPool st.pool snap).2
  let dyn : List SubmittedCut :=
    if found then []
    else
      (if D.opts.chainCoverOn then
        ((generalizedCoverSeparation D r.xf).toList.map .genCover) ++
          ((chainCoverSeparation D r.xf).map .chainCover)
      else []) ++
      (if D.opts.availUsercutsOn then
        (heurSep D r.xf fuel).map .heurAvail
      else [])
  let subs := poolIdx.map .fromPool ++ dyn
  ({ st with
      nbCuts := st.nbCuts + subs.length
      nbCutsAvailHeuristic := st.nbCutsAvailHeuristic +
        (if found then 0
         else if D.opts.availUsercutsOn then (heurSep D r.xf fuel).length
         else 0) },
   subs)

/-- `Callback::addLazyConstraints`: one nogood per violated demand;
every emission increments the lazy-constraint counter once. -/
def addLazyConstraints (D : NetData) (st : CbState)
    (xc : ℕ → ℕ → ℕ → Bool) : CbState × List Nogood :=
  let ngs := (List.range D.nbDemands).filterMap fun k =>
    addLazyDemand D.nbNodes D.avail (D.demand k).reqAvail (D.nbSec k)
      (xc k)
  ({ st with nbLazyConstraints := st.nbLazyConstraints + ngs.length }, ngs)

/-- What one invocation hands back to the host. -/
structure InvokeOut where
  cuts : List SubmittedCut
  nogoods : List Nogood
  posted : Option PostedSol
  heuristicCalled : Bool

/-- `Callback::invoke`: dispatch on the event kind.  On a relaxation,
the heuristic runs only when the user-cut counter is unchanged after
`addUserCuts`; on a bounded candidate, the lazy engine runs; an
unexpected event kind aborts with a diagnostic. -/
def invoke (D : NetData) (fuel : ℕ) (st : CbState) (e : Event) :
    Except CbError (CbState × InvokeOut) :=
  match e with
  | .relaxation r =>
    let currentNumberOfCuts := st.nbCuts
    let st1 := (addUserCuts D fuel st r).1
    let subs := (addUserCuts D fuel st r).2
    if currentNumberOfCuts = st1.nbCuts then
      .ok ({ st1 with heur := (runHeuristic D fuel r st1.heur).1 },
        ⟨subs, [], (runHeuristic D fuel r st1.heur).2, true⟩)
    else .ok (st1, ⟨subs, [], none, false⟩)
  | .candidate c =>
    if c.isPoint then
      match getIntegerSolution e with
      | .error err => .error err
      | .ok xc =>
        let (st1, ngs) := addLazyConstraints D st xc
        .ok (st1, ⟨[], ngs, none, false⟩)
    else .ok (st, ⟨[], [], none, false⟩)
  | .other => .error .unexpectedContextId

/-- The `Callback` constructor: builds the pool, zeroes the counters
and seeds the PRNG with the hard-coded constant, discarding whatever
ambient PRNG state `s0` the process had. -/
def constructCallback (D : NetData) (s0 : ℕ) : CbState :=
  let _ := s0
  { pool := setCutPool D
    nbCuts := 0
    nbLazyConstraints := 0
    nbCutsAvailHeuristic := 0
    heur :=
      { ySol := fun _ _ => false
        xSol := fun _ _ _ => false
        objSol := 0
        remCap := fun _ => 0
        rng := SEED } }

/-- A whole run: fold `invoke` over the host's event sequence,
collecting every invocation's output. -/
def runEvents (D : NetData) (fuel : ℕ) :
    CbState → List Event → Except CbError (CbState × List InvokeOut)
  | st, [] => .ok (st, [])
  | st, e :: rest =>
    match invoke D fuel st e with
    | .error err => .error err
    | .ok (st', out) =>
      match runEvents D fuel st' rest with
      | .error err => .error err
      | .ok (stFin, outs) => .ok (stFin, out :: outs)

/-- Load of the assigned `(demand, section)` pairs on node `v`:
the sum of `bandwidth × consumption` over the pairs assigned there. -/
def assignedLoad (D : NetData) (xs : ℕ → ℕ → ℕ → Bool) (v : ℕ) : ℚ :=
  ((demandSecPairs D).map fun p =>
    if xs p.1 p.2 v then D.reqCap p.1 p.2 else 0).sum

/-- Load of the pairs of a list `l` assigned to node `v`. -/
def loadL (D : NetData) (xs : ℕ → ℕ → ℕ → Bool) (l : List (ℕ × ℕ))
    (v : ℕ) : ℚ :=
  (l.map fun p => if xs p.1 p.2 v then D.reqCap p.1 p.2 else 0).sum

/-- Capacity safety: every node keeps a non-negative remaining
capacity that, together with the load of its assigned
`(demand, section)` pairs, fits its capacity. -/
def CapInv (D : NetData) (st : HeurSt) : Prop :=
  ∀ v < D.nbNodes, 0 ≤ st.remCap v ∧
    st.remCap v + assignedLoad D st.xSol v ≤ D.cap v

/-! ### Concrete instances used to evaluate the development -/

/-- A trivial instance: no nodes, no demands, every option off. -/
def D0 : NetData :=
  { nbNodes := 0
    avail := fun _ => 0
    cap := fun _ => 0
    nbVnfs := 0
    consumption := fun _ => 0
    placementCost := fun _ _ => 0
    demands := []
    availRank := []
    vnfLBOne := fun _ _ => 0
    vnfLBSet := fun _ _ _ => 0
    extraPoolVnfLB := []
    extraPoolSecFail := []
    opts := ⟨false, false, false, false, false, false, false⟩ }

/-- The state of the trivial instance right after construction. -/
def st0 : CbState := constructCallback D0 0

/-- A trivial relaxation snapshot. -/
def r0 : RelaxInfo := ⟨fun _ _ _ => 0, fun _ _ => 0, 0, 0⟩

/-- A candidate event carrying an unbounded solution. -/
def ci0 : CandInfo := ⟨false, fun _ _ _ => false⟩

/-- A two-node instance (availabilities `9/10` and `1/2`, rank order
`[0, 1]`) with one single-section demand of required availability
`3/4`. -/
def Dex : NetData :=
  { nbNodes := 2
    avail := fun v => if v = 0 then 9 / 10 else 1 / 2
    cap := fun _ => 10
    nbVnfs := 1
    consumption := fun _ => 1
    placementCost := fun _ _ => 1
    demands := [⟨[0], 1, 3 / 4⟩]
    availRank := [0, 1]
    vnfLBOne := fun _ _ => 0
    vnfLBSet := fun _ _ _ => 0
    extraPoolVnfLB := []
    extraPoolSecFail := []
    opts := ⟨false, true, true, false, false, false, false⟩ }

/-- A one-node availability map (`a(0) = 1/2`) for the lazy-engine
examples. -/
def aEx : ℕ → ℚ := fun _ => 1 / 2

/-- The empty candidate assignment. -/
def xsEx : ℕ → ℕ → Bool := fun _ _ => false

/-- The full assignment. -/
def zEx : ℕ → ℕ → Bool := fun _ _ => true

/-- The (already sorted) availability records of the empty candidate
on one node and one section. -/
def sortedEx : List (ℕ × ℚ) := secRecords 1 aEx xsEx 1

end FiveG

/-! ## Theorems -/

namespace FiveG

/-- The loop of `checkCutPool` appends exactly the violated pool
indexes, in pool order, and reports whether any exists. -/
theorem checkCutPool_foldl_eq (P : ℕ → Bool) :
    ∀ (l : List ℕ) (acc : List ℕ) (b : Bool),
      l.foldl (fun acc i => if P i then (acc.1 ++ [i], true) else acc)
        (acc, b) = (acc ++ l.filter P, b || l.any P) := by
  intro l
  induction l with
  | nil => intro acc b; simp
  | cons x xs ih =>
    intro acc b
    by_cases h : P x = true
    · simp [h, ih, Bool.or_assoc]
    · simp only [Bool.not_eq_true] at h
      simp [h, ih]

/-- `checkCutPool` is the filter of the pool by the violation test. -/
theorem checkCutPool_eq (pool : List PoolCut) (snap : ℕ × ℕ × ℕ → ℚ) :
    checkCutPool pool snap =
      ((List.range pool.length).filter
        (fun i => cutViolated snap (pool.getD i dPool)),
       (List.range pool.length).any
        (fun i => cutViolated snap (pool.getD i dPool))) := by
  unfold checkCutPool
  simpa using checkCutPool_foldl_eq _ (List.range pool.length) [] false

/-- C8 — `checkCutPool` is idempotent on an unchanged snapshot: the
pool is read-only (the embedding's `checkCutPool` takes the immutable
pool and the snapshot and returns only the submitted indexes), so a
second pass on the same relaxation values submits exactly the cuts of
the first pass, and the set of cuts submitted to the host after two
consecutive checks equals the set submitted after one. -/
theorem checkCutPool_idempotent (pool : List PoolCut)
    (snap : ℕ × ℕ × ℕ → ℚ) :
    (∀ i, i ∈ (checkCutPool pool snap).1 ++ (checkCutPool pool snap).1 ↔
      i ∈ (checkCutPool pool snap).1) ∧
    (checkCutPool pool snap).1 =
      (List.range pool.length).filter
        (fun i => cutViolated snap (pool.getD i dPool)) := by
  refine ⟨fun i => ?_, ?_⟩
  · simp [List.mem_append]
  · rw [checkCutPool_eq]

/-- The nested loops of `generalizedCoverSeparation` stop at the first
violated combination. -/
theorem genCoverLoop_eq_find (D : NetData) (xf : ℕ → ℕ → ℕ → ℚ) :
    ∀ l : List (ℕ × ℕ × ℕ),
      genCoverLoop D xf l =
        (l.find? (genViolated D xf)).map (mkGenCut D xf) := by
  intro l
  induction l with
  | nil => rfl
  | cons c rest ih =>
    by_cases h : genViolated D xf c = true
    · simp [genCoverLoop, h, List.find?]
    · simp only [Bool.not_eq_true] at h
      simp [genCoverLoop, h, List.find?, ih]

/-- C7 — `generalizedCoverSeparation` submits at most one cut per
call: it returns the cut of the first combination (demand, probe node,
prefix length, in loop order) whose bound is non-negative and whose
left-hand side is below the bound by more than `EPS`, and nothing
else; no later demand, probe node or prefix is examined. -/
theorem generalizedCoverSeparation_first_hit (D : NetData)
    (xf : ℕ → ℕ → ℕ → ℚ) :
    generalizedCoverSeparation D xf =
      ((genCombos D).find? (genViolated D xf)).map (mkGenCut D xf) ∧
    (generalizedCoverSeparation D xf).toList.length ≤ 1 := by
  refine ⟨genCoverLoop_eq_find D xf (genCombos D), ?_⟩
  cases generalizedCoverSeparation D xf <;> simp

/-- C10 — the PRNG is seeded exactly once, at construction, with the
hard-coded constant `20102019`; the ambient PRNG state is discarded,
so two runs over identical data and identical event sequences agree on
every state and every output (draws, trigger decisions, heuristic
solutions). -/
theorem seeded_once_two_run_determinism (D : NetData) (fuel : ℕ)
    (evs : List Event) (s0 s1 : ℕ) :
    runEvents D fuel (constructCallback D s0) evs =
      runEvents D fuel (constructCallback D s1) evs ∧
    (constructCallback D s0).heur.rng = SEED ∧ SEED = 20102019 :=
  ⟨rfl, rfl, rfl⟩

/-- C6 — an event whose kind is neither `Relaxation` nor `Candidate`
makes `invoke` abort with the unexpected-context diagnostic, and
`getIntegerSolution` (the point where a bounded candidate point is
expected) aborts with the unbounded-solution diagnostic when the
candidate is no point; neither continues silently. -/
theorem invoke_defensive :
    (∀ (D : NetData) (fuel : ℕ) (st : CbState),
      invoke D fuel st Event.other = .error CbError.unexpectedContextId) ∧
    (∀ ci : CandInfo, ci.isPoint = false →
      getIntegerSolution (.candidate ci) =
        .error CbError.unboundedCandidate) := by
  refine ⟨fun D fuel st => rfl, fun ci h => ?_⟩
  simp [getIntegerSolution, h]

/-- Witness for C6 at the concrete unbounded candidate `ci0`. -/
theorem invoke_defensive_witness :
    ci0.isPoint = false ∧
    getIntegerSolution (.candidate ci0) =
      .error CbError.unboundedCandidate :=
  ⟨rfl, invoke_defensive.2 ci0 rfl⟩

/-- `addUserCuts` increments the user-cut counter by exactly the
number of cuts it submitted. -/
theorem addUserCuts_counter (D : NetData) (fuel : ℕ) (st : CbState)
    (r : RelaxInfo) :
    (addUserCuts D fuel st r).1.nbCuts =
      st.nbCuts + (addUserCuts D fuel st r).2.length := by
  rfl

/-- C9 — on a relaxation event the matheuristic is attempted only when
the user-cut counter is unchanged after `addUserCuts` returns; when it
is attempted no cut was submitted in that invocation, and whenever at
least one user cut was submitted, `runHeuristic` is never called. -/
theorem heuristic_only_when_no_cuts (D : NetData) (fuel : ℕ)
    (st : CbState) (r : RelaxInfo) (st' : CbState) (out : InvokeOut) :
    invoke D fuel st (.relaxation r) = .ok (st', out) →
      (out.heuristicCalled = true →
        st'.nbCuts = st.nbCuts ∧ out.cuts = []) ∧
      (out.cuts ≠ [] → out.heuristicCalled = false) := by
  intro h
  simp only [invoke] at h
  by_cases hc : st.nbCuts = (addUserCuts D fuel st r).1.nbCuts
  · rw [if_pos hc] at h
    have h1 : st'.nbCuts = (addUserCuts D fuel st r).1.nbCuts := by
      cases h; rfl
    have h2 : out.cuts = (addUserCuts D fuel st r).2 := by
      cases h; rfl
    have hlen : (addUserCuts D fuel st r).2.length = 0 := by
      have := addUserCuts_counter D fuel st r
      omega
    have hnil : (addUserCuts D fuel st r).2 = [] :=
      List.eq_nil_of_length_eq_zero hlen
    refine ⟨fun _ => ⟨?_, ?_⟩, fun hne => ?_⟩
    · rw [h1, ← hc]
    · rw [h2, hnil]
    · exact absurd (h2.trans hnil) hne
  · rw [if_neg hc] at h
    have h2 : out.heuristicCalled = false := by cases h; rfl
    exact ⟨fun ht => absurd ht (by rw [h2]; simp), fun _ => h2⟩

/-- Witness for C9 on the trivial instance, where no cut is found and
the heuristic branch is taken. -/
theorem heuristic_only_when_no_cuts_witness :
    invoke D0 0 st0 (.relaxation r0) =
      .ok (st0, ⟨[], [], none, true⟩) ∧
    (st0.nbCuts = st0.nbCuts ∧ ([] : List SubmittedCut) = []) :=
  ⟨rfl,
    (heuristic_only_when_no_cuts D0 0 st0 r0 st0 ⟨[], [], none, true⟩
      rfl).1 rfl⟩

/-- Membership in the node-cover pool, unfolded. -/
theorem nodeCoverCuts_mem (D : NetData) (cut : CoverCut) :
    cut ∈ nodeCoverCuts D ↔
      ∃ k < D.nbDemands, ∃ i < D.nbSec k, ∃ v < D.nbNodes,
        (0 < D.rankPos v ∧
          coverC D k (D.availRank.getD (D.rankPos v - 1) 0) < coverC D k v) ∧
        cut = ⟨k, i, v, (coverC D k v : ℤ), fun j => coverCoeff D k v j⟩ := by
  simp only [nodeCoverCuts, List.mem_flatMap, List.mem_filterMap,
    List.mem_range, Option.ite_none_right_eq_some, Option.some.injEq]
  constructor
  · rintro ⟨k, hk, i, hi, v, hv, hcond, heq⟩
    exact ⟨k, hk, i, hi, v, hv, hcond, heq.symm⟩
  · rintro ⟨k, hk, i, hi, v, hv, hcond, heq⟩
    exact ⟨k, hk, i, hi, v, hv, hcond, heq.symm⟩

/-- C4 — for every demand `k`, section `i` and node `v` of positive
rank position, a node-cover cut for `(k, i, v)` is in the pool iff
`c(v)` exceeds `c` of the node at the preceding rank position
(dominated constraints are skipped); such a cut has right-hand side
`c(v)`, coefficient `max(c(v) - c(j) + 1, 1)` on nodes ranked strictly
above `v` and coefficient `1` on every other node. -/
theorem nodeCover_pool_characterization (D : NetData) (k i v : ℕ)
    (hk : k < D.nbDemands) (hi : i < D.nbSec k) (hv : v < D.nbNodes)
    (hpos : 0 < D.rankPos v) :
    ((∃ cut ∈ nodeCoverCuts D,
        cut.demand = k ∧ cut.sec = i ∧ cut.node = v) ↔
      coverC D k (D.availRank.getD (D.rankPos v - 1) 0) < coverC D k v) ∧
    (∀ cut ∈ nodeCoverCuts D, cut.demand = k → cut.sec = i →
      cut.node = v →
        cut.rhs = (coverC D k v : ℤ) ∧
        ∀ j, cut.coeff j =
          if D.rankPos j < D.rankPos v then
            max ((coverC D k v : ℤ) - (coverC D k j : ℤ) + 1) 1
          else 1) := by
  constructor
  · constructor
    · rintro ⟨cut, hmem, hd, hs, hn⟩
      rw [nodeCoverCuts_mem] at hmem
      obtain ⟨k', _, i', _, v', _, hcond, heq⟩ := hmem
      subst heq
      simp only at hd hs hn
      subst hd; subst hn
      exact hcond.2
    · intro hcond
      refine ⟨⟨k, i, v, (coverC D k v : ℤ), fun j => coverCoeff D k v j⟩,
        ?_, rfl, rfl, rfl⟩
      rw [nodeCoverCuts_mem]
      exact ⟨k, hk, i, hi, v, hv, ⟨hpos, hcond⟩, rfl⟩
  · rintro cut hmem hd hs hn
    rw [nodeCoverCuts_mem] at hmem
    obtain ⟨k', _, i', _, v', _, hcond, heq⟩ := hmem
    subst heq
    simp only at hd hs hn
    subst hd; subst hn
    exact ⟨rfl, fun j => rfl⟩

/-- Witness for C4 on the two-node instance: the cut generated by the
worse-ranked node `1` is in the pool since `c(1) = 2 > 1 = c(0)`. -/
theorem nodeCover_pool_characterization_witness :
    (0 < Dex.nbDemands ∧ 0 < Dex.nbSec 0 ∧ 1 < Dex.nbNodes ∧
      0 < Dex.rankPos 1) ∧
    ((∃ cut ∈ nodeCoverCuts Dex,
        cut.demand = 0 ∧ cut.sec = 0 ∧ cut.node = 1) ↔
      coverC Dex 0 (Dex.availRank.getD (Dex.rankPos 1 - 1) 0) <
        coverC Dex 0 1) :=
  ⟨by decide,
    (nodeCover_pool_characterization Dex 0 0 1 (by decide) (by decide)
      (by decide) (by decide)).1⟩

/-- The bounded scan of `minNbNodesAux` stays within its fuel, every
count below its result fails the availability test, and a result
reached before the fuel ran out passes it. -/
theorem minNbNodesAux_spec (target a : ℚ) :
    ∀ fuel n : ℕ,
      minNbNodesAux target a fuel n ≤ n + fuel ∧
      (∀ j, n ≤ j → j < minNbNodesAux target a fuel n →
        ¬ target ≤ 1 - (1 - a) ^ j) ∧
      (minNbNodesAux target a fuel n < n + fuel →
        target ≤ 1 - (1 - a) ^ minNbNodesAux target a fuel n) := by
  intro fuel
  induction fuel with
  | zero =>
    intro n
    refine ⟨by simp [minNbNodesAux], ?_, ?_⟩
    · intro j hj hj2
      simp only [minNbNodesAux] at hj2
      omega
    · intro h
      simp only [minNbNodesAux] at h
      omega
  | succ fuel ih =>
    intro n
    by_cases hP : target ≤ 1 - (1 - a) ^ n
    · refine ⟨?_, ?_, ?_⟩ <;> simp only [minNbNodesAux, if_pos hP]
      · omega
      · intro j hj hj2; omega
      · intro _; exact hP
    · obtain ⟨ih1, ih2, ih3⟩ := ih (n + 1)
      refine ⟨?_, ?_, ?_⟩ <;> simp only [minNbNodesAux, if_neg hP]
      · omega
      · intro j hj hj2
        rcases Nat.eq_or_lt_of_le hj with rfl | hlt
        · exact hP
        · exact ih2 j hlt hj2
      · intro h; exact ih3 (by omega)

/-- Bernoulli bound: the fuel of `minNbNodes` itself passes the
availability test whenever the node availability is a probability in
`(0, 1]` and the target is below `1`. -/
theorem minNbNodesFuel_reaches (target a : ℚ) (ha0 : 0 < a)
    (ha1 : a ≤ 1) (ht : target < 1) :
    target ≤ 1 - (1 - a) ^ minNbNodesFuel target a := by
  have hq0 : (0 : ℚ) ≤ 1 - a := by linarith
  have hε : (0 : ℚ) < 1 - target := by linarith
  have hM2 : 2 ≤ minNbNodesFuel target a := by
    simp [minNbNodesFuel]
  suffices h : (1 - a) ^ minNbNodesFuel target a ≤ 1 - target by linarith
  rcases eq_or_lt_of_le hq0 with h0 | h0
  · rw [← h0, zero_pow (by omega)]
    linarith
  · set q : ℚ := 1 - a with hqdef
    set M : ℕ := minNbNodesFuel target a with hMdef
    have hr : (0 : ℚ) < a / q := div_pos ha0 h0
    have bern := one_add_mul_le_pow (a := a / q) (by linarith) M
    have h1q : 1 + a / q = 1 / q := by
      field_simp
      linarith
    have hMx : (1 - a) / ((1 - target) * a) ≤ (M : ℚ) := by
      have h1 := Nat.le_ceil ((1 - a) / ((1 - target) * a))
      have h2 : ((⌈(1 - a) / ((1 - target) * a)⌉₊ : ℕ) : ℚ) ≤ (M : ℚ) := by
        have : (⌈(1 - a) / ((1 - target) * a)⌉₊ : ℕ) ≤ M := by
          simp [hMdef, minNbNodesFuel]
        exact_mod_cast this
      linarith
    have hMr : 1 / (1 - target) ≤ (M : ℚ) * (a / q) := by
      have hstep : (q / ((1 - target) * a)) * (a / q) ≤ (M : ℚ) * (a / q) :=
        mul_le_mul_of_nonneg_right hMx (le_of_lt hr)
      have heq : (q / ((1 - target) * a)) * (a / q) = 1 / (1 - target) := by
        field_simp
        ring
      linarith
    have hpow : 1 / (1 - target) ≤ (1 / q) ^ M := by
      calc 1 / (1 - target) ≤ (M : ℚ) * (a / q) := hMr
        _ ≤ 1 + (M : ℚ) * (a / q) := by linarith
        _ ≤ (1 + a / q) ^ M := bern
        _ = (1 / q) ^ M := by rw [h1q]
    have hqM : (0 : ℚ) < q ^ M := pow_pos h0 M
    have hinv : (1 / q) ^ M = 1 / q ^ M := by
      rw [one_div, one_div, inv_pow]
    rw [hinv] at hpow
    calc q ^ M = 1 / (1 / q ^ M) := by
          rw [one_div_one_div]
      _ ≤ 1 / (1 / (1 - target)) := by
          apply one_div_le_one_div_of_le
          · positivity
          · exact hpow
      _ = 1 - target := one_div_one_div _

/-- Everything below `minNbNodes` fails the availability test. -/
theorem minNbNodes_min (target a : ℚ) :
    ∀ j < minNbNodes target a, ¬ target ≤ 1 - (1 - a) ^ j :=
  fun j hj =>
    (minNbNodesAux_spec target a (minNbNodesFuel target a) 0).2.1 j
      (Nat.zero_le j) hj

/-- `minNbNodes` passes the availability test under the probability
hypotheses of the data model. -/
theorem minNbNodes_reaches (target a : ℚ) (ha0 : 0 < a) (ha1 : a ≤ 1)
    (ht : target < 1) :
    target ≤ 1 - (1 - a) ^ minNbNodes target a := by
  obtain ⟨hle, _, hsat⟩ :=
    minNbNodesAux_spec target a (minNbNodesFuel target a) 0
  rcases lt_or_eq_of_le hle with hlt | heq
  · exact hsat (by omega)
  · show target ≤ 1 - (1 - a) ^ minNbNodesAux target a (minNbNodesFuel target a) 0
    rw [heq]
    simpa using minNbNodesFuel_reaches target a ha0 ha1 ht

/-- `minNbNodes` is antitone in the node availability: more available
nodes never need a larger count. -/
theorem minNbNodes_anti (target a1 a2 : ℚ) (h0 : 0 < a2) (h21 : a2 ≤ a1)
    (h1 : a1 ≤ 1) (ht : target < 1) :
    minNbNodes target a1 ≤ minNbNodes target a2 := by
  by_contra hlt
  push_neg at hlt
  have hsat2 := minNbNodes_reaches target a2 h0 (le_trans h21 h1) ht
  have hpow : (1 - a1) ^ minNbNodes target a2 ≤
      (1 - a2) ^ minNbNodes target a2 :=
    pow_le_pow_left₀ (by linarith) (by linarith) _
  exact minNbNodes_min target a1 (minNbNodes target a2) hlt (by linarith)

/-- Availability along the rank order is non-increasing. -/
theorem avail_anti_of_rankPos (D : NetData)
    (hsort : List.Sorted (fun p q => D.avail q ≤ D.avail p) D.availRank)
    (u w : ℕ) (hu : u ∈ D.availRank) (hw : w ∈ D.availRank)
    (huw : D.rankPos u < D.rankPos w) : D.avail w ≤ D.avail u := by
  have hul : D.availRank.indexOf u < D.availRank.length :=
    List.indexOf_lt_length.mpr hu
  have hwl : D.availRank.indexOf w < D.availRank.length :=
    List.indexOf_lt_length.mpr hw
  have hrel := hsort.rel_get_of_lt
    (a := ⟨D.availRank.indexOf u, hul⟩)
    (b := ⟨D.availRank.indexOf w, hwl⟩) huw
  simpa [List.get_eq_getElem, List.getElem_indexOf] using hrel

/-- C5 (amended) — within one node-cover cut the coefficients are
non-increasing as the rank worsens: if `u` is ranked strictly better
(more available) than `w`, then the coefficient of `w` is at most the
coefficient of `u`.  (The frozen claim states the opposite direction;
see the counterexample.) -/
theorem nodeCover_coeff_antitone (D : NetData)
    (hsort : List.Sorted (fun p q => D.avail q ≤ D.avail p) D.availRank)
    (hava : ∀ w ∈ D.availRank, 0 < D.avail w ∧ D.avail w ≤ 1)
    (hreq : ∀ k < D.nbDemands, (D.demand k).reqAvail < 1)
    (cut : CoverCut) (hcut : cut ∈ nodeCoverCuts D)
    (u w : ℕ) (hu : u ∈ D.availRank) (hw : w ∈ D.availRank)
    (huw : D.rankPos u < D.rankPos w) :
    cut.coeff w ≤ cut.coeff u := by
  rw [nodeCoverCuts_mem] at hcut
  obtain ⟨k, hk, i, _, v, _, _, heq⟩ := hcut
  subst heq
  simp only
  have hc : coverC D k u ≤ coverC D k w := by
    apply minNbNodes_anti
    · exact (hava w hw).1
    · exact avail_anti_of_rankPos D hsort u w hu hw huw
    · exact (hava u hu).2
    · exact hreq k hk
  unfold coverCoeff
  by_cases hwv : D.rankPos w < D.rankPos v
  · rw [if_pos hwv, if_pos (lt_trans huw hwv)]
    have : (coverC D k v : ℤ) - (coverC D k w : ℤ) + 1 ≤
        (coverC D k v : ℤ) - (coverC D k u : ℤ) + 1 := by
      have : (coverC D k u : ℤ) ≤ (coverC D k w : ℤ) := by exact_mod_cast hc
      omega
    exact max_le_max this le_rfl
  · rw [if_neg hwv]
    by_cases huv : D.rankPos u < D.rankPos v
    · rw [if_pos huv]
      exact le_max_right _ _
    · rw [if_neg huv]

/-- If a count passes the availability test and every smaller count
fails it, it is the value of `minNbNodes`. -/
theorem minNbNodes_eq_of (target a : ℚ) (n : ℕ) (ha0 : 0 < a)
    (ha1 : a ≤ 1) (ht : target < 1)
    (hsat : target ≤ 1 - (1 - a) ^ n)
    (hmin : ∀ j < n, ¬ target ≤ 1 - (1 - a) ^ j) :
    minNbNodes target a = n := by
  have h1 := minNbNodes_reaches target a ha0 ha1 ht
  by_contra hne
  rcases Nat.lt_or_ge (minNbNodes target a) n with hlt | hge
  · exact hmin _ hlt h1
  · exact minNbNodes_min target a n
      (lt_of_le_of_ne hge fun h => hne h.symm) hsat

/-- On the two-node instance, one node of availability `9/10` reaches
the target `3/4`. -/
theorem coverC_Dex_node0 : coverC Dex 0 0 = 1 := by
  show minNbNodes (3 / 4) (9 / 10) = 1
  apply minNbNodes_eq_of <;> norm_num

/-- On the two-node instance, two nodes of availability `1/2` are
needed to reach the target `3/4`. -/
theorem coverC_Dex_node1 : coverC Dex 0 1 = 2 := by
  show minNbNodes (3 / 4) (1 / 2) = 2
  apply minNbNodes_eq_of <;> try norm_num
  intro j hj
  interval_cases j <;> norm_num

/-- The single node-cover cut of the two-node instance. -/
theorem Dex_cut_mem :
    (⟨0, 0, 1, (coverC Dex 0 1 : ℤ),
      fun j => coverCoeff Dex 0 1 j⟩ : CoverCut) ∈ nodeCoverCuts Dex := by
  rw [nodeCoverCuts_mem]
  refine ⟨0, by decide, 0, by decide, 1, by decide, ⟨by decide, ?_⟩, rfl⟩
  show coverC Dex 0 0 < coverC Dex 0 1
  rw [coverC_Dex_node0, coverC_Dex_node1]
  omega

/-- In the cut of the two-node instance, the better-ranked node `0`
has coefficient `2`. -/
theorem Dex_coeff_node0 : coverCoeff Dex 0 1 0 = 2 := by
  unfold coverCoeff
  rw [if_pos (by decide : Dex.rankPos 0 < Dex.rankPos 1),
    coverC_Dex_node0, coverC_Dex_node1]
  norm_num

/-- In the cut of the two-node instance, the generating node `1` has
coefficient `1`. -/
theorem Dex_coeff_node1 : coverCoeff Dex 0 1 1 = 1 := by
  unfold coverCoeff
  rw [if_neg (by decide : ¬ Dex.rankPos 1 < Dex.rankPos 1)]

/-- Witness for the amended C5 on the two-node instance: in the pool's
single cut, the better-ranked node `0` has coefficient `2` and the
worse-ranked node `1` has coefficient `1`. -/
theorem nodeCover_coeff_antitone_witness :
    ∃ cut ∈ nodeCoverCuts Dex, cut.coeff 1 ≤ cut.coeff 0 := by
  refine ⟨_, Dex_cut_mem, ?_⟩
  refine nodeCover_coeff_antitone Dex ?_ ?_ ?_ _ Dex_cut_mem 0 1
    (by decide) (by decide) (by decide)
  · norm_num [Dex, List.sorted_cons]
  · intro w hw
    fin_cases hw <;> norm_num [Dex]
  · intro k hk
    have hk0 : k = 0 := by
      simp only [NetData.nbDemands, Dex, List.length_cons,
        List.length_nil] at hk
      omega
    subst hk0
    norm_num [Dex, NetData.demand]

/-- C5 counterexample — on the two-node instance the claim as frozen
fails: node `0` is ranked strictly better than node `1`, both appear
in the pool's single cut, and the coefficient of node `0` (namely `2`)
exceeds the coefficient of node `1` (namely `1`); coefficients are not
non-decreasing as the rank worsens. -/
theorem nodeCover_coeff_claim_false :
    ¬ ∀ cut ∈ nodeCoverCuts Dex, ∀ u < Dex.nbNodes, ∀ w < Dex.nbNodes,
        Dex.rankPos u < Dex.rankPos w → cut.coeff u ≤ cut.coeff w := by
  intro h
  have hle := h _ Dex_cut_mem 0 (by decide) 1 (by decide) (by decide)
  simp only at hle
  rw [Dex_coeff_node0, Dex_coeff_node1] at hle
  omega

/-! ### Lemmas for the lazy-constraint engine -/

/-- List/Finset bridge for products over a range. -/
theorem listProd_range (f : ℕ → ℚ) :
    ∀ n, ((List.range n).map f).prod = ∏ i ∈ Finset.range n, f i := by
  intro n
  induction n with
  | zero => simp
  | succ n ih =>
    rw [List.range_succ, List.map_append, List.prod_append,
      Finset.prod_range_succ, ih]
    simp

/-- The product of the first `m` tracked availabilities as a product
of indexed accesses. -/
theorem take_map_prod (l : List (ℕ × ℚ)) :
    ∀ m, m ≤ l.length →
      ((l.take m).map Prod.snd).prod =
        ∏ s ∈ Finset.range m, (l.getD s dRec).2 := by
  intro m
  induction m with
  | zero => intro _; simp
  | succ m ih =>
    intro hm
    have hmlt : m < l.length := by omega
    rw [List.take_succ, List.map_append, List.prod_append,
      Finset.prod_range_succ, ih (by omega)]
    have : l[m]? = some l[m] := List.getElem?_eq_getElem hmlt
    rw [this]
    simp [List.getD_eq_getElem?_getD, this]

/-- Behaviour of the scan loop of `addLazyConstraints`: it consumes
`m ≤ length` records, its final value is the running product of the
consumed records, every proper sub-run stays at or above the
requirement, and it stops either below the requirement or at the end
of the list. -/
theorem findViolPre_spec (req : ℚ) :
    ∀ (l : List (ℕ × ℚ)) (acc : ℚ) (n : ℕ),
      ∃ m, (findViolPre req l acc n).2 = n + m ∧ m ≤ l.length ∧
        (findViolPre req l acc n).1 =
          acc * ((l.take m).map Prod.snd).prod ∧
        (∀ j < m, req ≤ acc * ((l.take j).map Prod.snd).prod) ∧
        ((findViolPre req l acc n).1 < req ∨ m = l.length) := by
  intro l
  induction l with
  | nil =>
    intro acc n
    exact ⟨0, rfl, by simp, by simp [findViolPre], by omega, Or.inr rfl⟩
  | cons e rest ih =>
    intro acc n
    by_cases hacc : req ≤ acc
    · obtain ⟨m, hm1, hm2, hm3, hm4, hm5⟩ := ih (acc * e.2) (n + 1)
      have heq : findViolPre req (e :: rest) acc n =
          findViolPre req rest (acc * e.2) (n + 1) := by
        simp [findViolPre, hacc]
      refine ⟨m + 1, ?_, by simpa using Nat.succ_le_succ hm2, ?_, ?_, ?_⟩
      · rw [heq, hm1]; omega
      · rw [heq, hm3, List.take_succ_cons, List.map_cons, List.prod_cons]
        ring
      · intro j hj
        cases j with
        | zero => simpa using hacc
        | succ j =>
          have := hm4 j (by omega)
          rw [List.take_succ_cons, List.map_cons, List.prod_cons]
          calc req ≤ acc * e.2 * ((rest.take j).map Prod.snd).prod := this
            _ = acc * (e.2 * ((rest.take j).map Prod.snd).prod) := by ring
      · rw [heq]
        rcases hm5 with h | h
        · exact Or.inl h
        · exact Or.inr (by simp [h])
    · refine ⟨0, ?_, by simp, ?_, by omega, ?_⟩ <;>
        simp [findViolPre, hacc]
      linarith [lt_of_not_le hacc]

/-- Section failure probabilities are non-negative when availabilities
are probabilities. -/
theorem secFailProb_nonneg (N : ℕ) (a : ℕ → ℚ) (xs : ℕ → ℕ → Bool)
    (i : ℕ) (hav : ∀ v < N, 0 ≤ a v ∧ a v ≤ 1) :
    0 ≤ secFailProb N a xs i := by
  apply Finset.prod_nonneg
  intro v hv
  obtain ⟨h0, h1⟩ := hav v (Finset.mem_range.1 hv)
  split <;> linarith

/-- Section failure probabilities are at most one when availabilities
are probabilities. -/
theorem secFailProb_le_one (N : ℕ) (a : ℕ → ℚ) (xs : ℕ → ℕ → Bool)
    (i : ℕ) (hav : ∀ v < N, 0 ≤ a v ∧ a v ≤ 1) :
    secFailProb N a xs i ≤ 1 := by
  apply Finset.prod_le_one
  · intro v hv
    obtain ⟨h0, h1⟩ := hav v (Finset.mem_range.1 hv)
    split <;> linarith
  · intro v hv
    obtain ⟨h0, h1⟩ := hav v (Finset.mem_range.1 hv)
    split <;> linarith

/-- Section availabilities are in `[0, 1]` when availabilities are
probabilities. -/
theorem secAvail_bounds (N : ℕ) (a : ℕ → ℚ) (xs : ℕ → ℕ → Bool)
    (i : ℕ) (hav : ∀ v < N, 0 ≤ a v ∧ a v ≤ 1) :
    0 ≤ secAvail N a xs i ∧ secAvail N a xs i ≤ 1 := by
  unfold secAvail
  constructor
  · linarith [secFailProb_le_one N a xs i hav]
  · linarith [secFailProb_nonneg N a xs i hav]

/-- Section availability only depends on the section's row. -/
theorem secFailProb_ext (N : ℕ) (a : ℕ → ℚ) (xs ys : ℕ → ℕ → Bool)
    (i j : ℕ) (h : ∀ v < N, xs i v = ys j v) :
    secFailProb N a xs i = secFailProb N a ys j :=
  Finset.prod_congr rfl fun v hv => by rw [h v (Finset.mem_range.1 hv)]

/-- Placing a fresh node on a section multiplies its failure
probability by the node's unavailability. -/
theorem secFailProb_update (N : ℕ) (a : ℕ → ℚ) (xs : ℕ → ℕ → Bool)
    (i v : ℕ) (hv : v < N) (hxs : xs i v = false) :
    secFailProb N a
        (fun i' v' => if i' = i ∧ v' = v then true else xs i' v') i =
      secFailProb N a xs i * (1 - a v) := by
  unfold secFailProb
  have hvmem : v ∈ Finset.range N := Finset.mem_range.2 hv
  rw [← Finset.mul_prod_erase (Finset.range N) _ hvmem,
    ← Finset.mul_prod_erase (Finset.range N) _ hvmem]
  have h3 : ∀ w ∈ (Finset.range N).erase v,
      (if (fun i' v' => if i' = i ∧ v' = v then true else xs i' v') i w
          = true then 1 - a w else 1) =
        (if xs i w = true then 1 - a w else 1) := by
    intro w hw
    have hne : w ≠ v := Finset.ne_of_mem_erase hw
    simp only [hne, and_false, if_false]
  rw [Finset.prod_congr rfl h3]
  simp only [hxs, and_self, if_true, Bool.false_eq_true, if_false]
  ring

/-- Monotonicity: if every node of `z`'s row is also in `x`'s row, the
`z` section availability is at most the `x` one. -/
theorem secAvail_mono (N : ℕ) (a : ℕ → ℚ) (z x : ℕ → ℕ → Bool)
    (i j : ℕ) (hav : ∀ v < N, 0 ≤ a v ∧ a v ≤ 1)
    (hsub : ∀ v < N, z i v = true → x j v = true) :
    secAvail N a z i ≤ secAvail N a x j := by
  unfold secAvail
  suffices h : secFailProb N a x j ≤ secFailProb N a z i by linarith
  apply Finset.prod_le_prod
  · intro v hv
    obtain ⟨h0, h1⟩ := hav v (Finset.mem_range.1 hv)
    split <;> linarith
  · intro v hv
    obtain ⟨h0, h1⟩ := hav v (Finset.mem_range.1 hv)
    by_cases hxv : x j v = true
    · by_cases hzv : z i v = true
      · rw [hxv, hzv]
      · simp only [Bool.not_eq_true] at hzv
        rw [hxv, hzv]
        simp
        linarith
    · have hzv : z i v = false := by
        by_contra hc
        simp only [Bool.not_eq_false] at hc
        exact hxv (hsub v (Finset.mem_range.1 hv) hc)
      simp only [Bool.not_eq_true] at hxv
      rw [hxv, hzv]

/-- `getD` after `set` at the written position. -/
theorem getD_set_self (l : List (ℕ × ℚ)) (s : ℕ) (e d : ℕ × ℚ)
    (h : s < l.length) : (l.set s e).getD s d = e := by
  rw [List.getD_eq_getElem?_getD, List.getElem?_set_self h]
  rfl

/-- `getD` after `set` at another position. -/
theorem getD_set_other (l : List (ℕ × ℚ)) (s t : ℕ) (e d : ℕ × ℚ)
    (h : s ≠ t) : (l.set s e).getD t d = l.getD t d := by
  rw [List.getD_eq_getElem?_getD, List.getElem?_set_ne h,
    List.getD_eq_getElem?_getD]

/-- Distinct positions of the sorted record list carry distinct
section ids. -/
theorem sorted_fst_nodup (N : ℕ) (a : ℕ → ℚ) (xs0 : ℕ → ℕ → Bool)
    (nbSec : ℕ) (sorted : List (ℕ × ℚ))
    (hperm : sorted.Perm (secRecords N a xs0 nbSec)) :
    ∀ s t, s < sorted.length → t < sorted.length → s ≠ t →
      (sorted.getD s dRec).1 ≠ (sorted.getD t dRec).1 := by
  have hrec : (secRecords N a xs0 nbSec).map Prod.fst = List.range nbSec := by
    simp [secRecords, List.map_map, Function.comp_def]
  have hmap : (sorted.map Prod.fst).Perm (List.range nbSec) := by
    have := hperm.map Prod.fst
    rwa [hrec] at this
  have hnodup : (sorted.map Prod.fst).Nodup :=
    hmap.nodup_iff.2 (List.nodup_range nbSec)
  intro s t hslen htlen hst hEq
  rw [List.getD_eq_getElem _ _ hslen, List.getD_eq_getElem _ _ htlen] at hEq
  have hinj := List.nodup_iff_injective_getElem.1 hnodup
  have hs' : s < (sorted.map Prod.fst).length := by simpa using hslen
  have ht' : t < (sorted.map Prod.fst).length := by simpa using htlen
  have hget : (fun i : Fin (sorted.map Prod.fst).length =>
      (sorted.map Prod.fst)[i.1]) ⟨s, hs'⟩ =
      (fun i : Fin (sorted.map Prod.fst).length =>
        (sorted.map Prod.fst)[i.1]) ⟨t, ht'⟩ := by
    simpa [List.getElem_map] using hEq
  have := hinj hget
  exact hst (by simpa using this)

/-- One step of the inner loop of `lift` preserves the invariant. -/
theorem liftNode_inv (N : ℕ) (a : ℕ → ℚ) (req : ℚ)
    (xs0 : ℕ → ℕ → Bool) (sorted : List (ℕ × ℚ)) (nbSel : ℕ)
    (hnodup : ∀ s t, s < sorted.length → t < sorted.length → s ≠ t →
      (sorted.getD s dRec).1 ≠ (sorted.getD t dRec).1)
    (hsel : nbSel ≤ sorted.length)
    (s v : ℕ) (hs : s < nbSel) (hv : v < N) (st : LiftSt)
    (hinv : LiftInv N a req xs0 sorted nbSel st) :
    LiftInv N a req xs0 sorted nbSel (liftNode a req nbSel s st v) := by
  obtain ⟨hL, hF, hC, hV, hM⟩ := hinv
  unfold liftNode
  by_cases hxi : st.xs (st.sa.getD s dRec).1 v = true
  · rw [if_pos hxi]; exact ⟨hL, hF, hC, hV, hM⟩
  · rw [if_neg hxi]
    by_cases hfut : liftFuture a st.sa nbSel s v < req
    · rw [if_pos hfut]
      have hslen : s < st.sa.length := by
        rw [hL]; exact lt_of_lt_of_le hs hsel
      have hxsf : st.xs (st.sa.getD s dRec).1 v = false := by
        simpa using hxi
      refine ⟨?_, ?_, ?_, ?_, ?_⟩
      · simpa using hL
      · intro t
        by_cases hts : s = t
        · subst hts
          rw [getD_set_self _ _ _ _ hslen]
          exact hF s
        · rw [getD_set_other _ _ _ _ _ hts]
          exact hF t
      · intro t ht
        by_cases hts : s = t
        · subst hts
          rw [getD_set_self _ _ _ _ hslen]
          show 1 - (1 - (st.sa.getD s dRec).2) * (1 - a v) =
            secAvail N a _ (st.sa.getD s dRec).1
          have hupd := secFailProb_update N a st.xs
            (st.sa.getD s dRec).1 v hv hxsf
          have hcoh := hC s ht
          unfold secAvail at hcoh ⊢
          rw [hupd]
          have : secFailProb N a st.xs (st.sa.getD s dRec).1 =
              1 - (st.sa.getD s dRec).2 := by linarith
          rw [this]
        · rw [getD_set_other _ _ _ _ _ hts]
          have hcoh := hC t ht
          rw [hcoh]
          unfold secAvail
          congr 1
          apply secFailProb_ext
          intro v' hv'
          have hne : (st.sa.getD t dRec).1 ≠ (st.sa.getD s dRec).1 := by
            rw [hF t, hF s]
            exact hnodup t s (lt_of_lt_of_le ht hsel)
              (lt_of_lt_of_le hs hsel) (fun h => hts h.symm)
          simp only [hne, false_and, if_false]
      · have heq : (∏ t ∈ Finset.range nbSel,
            ((st.sa.set s ((st.sa.getD s dRec).1,
              1 - (1 - (st.sa.getD s dRec).2) * (1 - a v))).getD t
                dRec).2) = liftFuture a st.sa nbSel s v := by
          unfold liftFuture
          apply Finset.prod_congr rfl
          intro t _
          by_cases hts : t = s
          · subst hts
            rw [getD_set_self _ _ _ _ hslen, if_pos rfl]
          · rw [getD_set_other _ _ _ _ _ (fun h => hts h.symm),
              if_neg hts]
        rw [heq]
        exact hfut
      · intro i' v' h
        by_cases hcond : i' = (st.sa.getD s dRec).1 ∧ v' = v
        · simp [hcond]
        · simp only [hcond, if_false]
          exact hM i' v' h
    · rw [if_neg hfut]
      exact ⟨hL, hF, hC, hV, hM⟩

/-- The node loop of `lift` preserves the invariant. -/
theorem liftSec_inv (N : ℕ) (a : ℕ → ℚ) (req : ℚ)
    (xs0 : ℕ → ℕ → Bool) (sorted : List (ℕ × ℚ)) (nbSel : ℕ)
    (hnodup : ∀ s t, s < sorted.length → t < sorted.length → s ≠ t →
      (sorted.getD s dRec).1 ≠ (sorted.getD t dRec).1)
    (hsel : nbSel ≤ sorted.length)
    (s : ℕ) (hs : s < nbSel) (st : LiftSt)
    (hinv : LiftInv N a req xs0 sorted nbSel st) :
    LiftInv N a req xs0 sorted nbSel (liftSec N a req nbSel s st) := by
  unfold liftSec
  refine List.foldlRecOn _ _ _ hinv ?_
  intro b hb v hvmem
  exact liftNode_inv N a req xs0 sorted nbSel hnodup hsel s v hs
    (List.mem_range.1 hvmem) b hb

/-- `lift` preserves the invariant. -/
theorem lift_inv (N : ℕ) (a : ℕ → ℚ) (req : ℚ)
    (xs0 : ℕ → ℕ → Bool) (sorted : List (ℕ × ℚ)) (nbSel : ℕ)
    (hnodup : ∀ s t, s < sorted.length → t < sorted.length → s ≠ t →
      (sorted.getD s dRec).1 ≠ (sorted.getD t dRec).1)
    (hsel : nbSel ≤ sorted.length) (st : LiftSt)
    (hinv : LiftInv N a req xs0 sorted nbSel st) :
    LiftInv N a req xs0 sorted nbSel (lift N a req nbSel st) := by
  unfold lift
  refine List.foldlRecOn _ _ _ hinv ?_
  intro b hb s hsmem
  exact liftSec_inv N a req xs0 sorted nbSel hnodup hsel s
    (List.mem_range.1 hsmem) b hb

/-- The invariant holds when `lift` starts. -/
theorem liftInv_init (N : ℕ) (a : ℕ → ℚ) (req : ℚ) (nbSec : ℕ)
    (xs0 : ℕ → ℕ → Bool) (sorted : List (ℕ × ℚ)) (nbSel : ℕ)
    (hperm : sorted.Perm (secRecords N a xs0 nbSec))
    (hsel : nbSel ≤ sorted.length)
    (hvio : (∏ s ∈ Finset.range nbSel, (sorted.getD s dRec).2) < req) :
    LiftInv N a req xs0 sorted nbSel ⟨xs0, sorted⟩ := by
  refine ⟨rfl, fun s => rfl, ?_, hvio, fun i v h => h⟩
  intro s hs
  have hslen : s < sorted.length := lt_of_lt_of_le hs hsel
  have hmem : sorted.getD s dRec ∈ sorted := by
    rw [List.getD_eq_getElem _ _ hslen]
    exact List.getElem_mem hslen
  have hrec : sorted.getD s dRec ∈ secRecords N a xs0 nbSec :=
    hperm.subset hmem
  simp only [secRecords, List.mem_map, List.mem_range] at hrec
  obtain ⟨i, _, hi⟩ := hrec
  rw [← hi]

/-- Insertion keeps the records, up to permutation. -/
theorem insertAsc_perm (e : ℕ × ℚ) :
    ∀ l : List (ℕ × ℚ), (insertAsc e l).Perm (e :: l) := by
  intro l
  induction l with
  | nil => exact List.Perm.refl _
  | cons f rest ih =>
    unfold insertAsc
    split
    · exact List.Perm.refl _
    · exact (List.Perm.cons f ih).trans (List.Perm.swap e f rest)

/-- The insertion sort used for the availability records is a
permutation, as required of `std::sort`. -/
theorem sortAsc_perm : ∀ l : List (ℕ × ℚ), (sortAsc l).Perm l := by
  intro l
  induction l with
  | nil => exact List.Perm.refl _
  | cons e rest ih =>
    exact (insertAsc_perm e (sortAsc rest)).trans (List.Perm.cons e ih)

/-- Membership in the emitted nogood's variable list. -/
theorem lazyCutVars_mem (N : ℕ) (st : LiftSt) (nbSel : ℕ) (p : ℕ × ℕ) :
    p ∈ lazyCutVars N st nbSel ↔
      ∃ s < nbSel, ∃ v < N, st.xs (st.sa.getD s dRec).1 v = false ∧
        p = ((st.sa.getD s dRec).1, v) := by
  simp only [lazyCutVars, List.mem_flatMap, List.mem_filterMap,
    List.mem_range, Option.ite_none_left_eq_some, Option.some.injEq,
    Bool.not_eq_true]
  constructor
  · rintro ⟨s, hs, v, hv, hfalse, heq⟩
    exact ⟨s, hs, v, hv, hfalse, heq.symm⟩
  · rintro ⟨s, hs, v, hv, hfalse, heq⟩
    exact ⟨s, hs, v, hv, hfalse, heq.symm⟩

/-- The sorted record availabilities multiply to the true chain
availability. -/
theorem sorted_prod_eq_chainAvail (N : ℕ) (a : ℕ → ℚ)
    (xs : ℕ → ℕ → Bool) (nbSec : ℕ) (sorted : List (ℕ × ℚ))
    (hperm : sorted.Perm (secRecords N a xs nbSec)) :
    (sorted.map Prod.snd).prod = chainAvail N a xs nbSec := by
  rw [(hperm.map Prod.snd).prod_eq]
  unfold chainAvail
  rw [← listProd_range (secAvail N a xs) nbSec]
  congr 1
  simp [secRecords, List.map_map, Function.comp_def]

/-- An indexed record belongs to the prefix that contains its
position. -/
theorem getD_mem_take (l : List (ℕ × ℚ)) (s m : ℕ) (hs : s < m)
    (hm : m ≤ l.length) : l.getD s dRec ∈ l.take m := by
  have hsl : s < l.length := lt_of_lt_of_le hs hm
  have hlen : s < (l.take m).length := by
    simp only [List.length_take]
    omega
  have heq : (l.take m)[s] = l[s] := (List.getElem_take' l hsl hs).symm
  rw [List.getD_eq_getElem _ _ hsl, ← heq]
  exact List.getElem_mem hlen

/-- C1 — if a candidate's true chain availability for a demand is
strictly below its requirement, the lazy engine always rejects it: the
scan over the availability-ascending records stops at the minimal
prefix whose running product first drops below the requirement (the
prefix product is below it, every shorter prefix is not), and a nogood
is submitted whose variables range over exactly that prefix and, per
prefix section, over the nodes the (lifted) working assignment leaves
unassigned — all of which were unassigned in the candidate itself. -/
theorem lazy_completeness (N : ℕ) (a : ℕ → ℚ) (req : ℚ) (nbSec : ℕ)
    (xs : ℕ → ℕ → Bool) (sorted : List (ℕ × ℚ))
    (hperm : sorted.Perm (secRecords N a xs nbSec))
    (hviol : chainAvail N a xs nbSec < req) :
    ∃ ng, addLazyDemandSorted N a req xs sorted = some ng ∧
      ng.vars = lazyCutVars N
        (lift N a req (findViolPre req sorted 1 0).2 ⟨xs, sorted⟩)
        (findViolPre req sorted 1 0).2 ∧
      (((sorted.take (findViolPre req sorted 1 0).2).map Prod.snd).prod
          < req ∧
        ∀ j < (findViolPre req sorted 1 0).2,
          req ≤ ((sorted.take j).map Prod.snd).prod) ∧
      ∀ p ∈ ng.vars,
        p.1 ∈ (sorted.take (findViolPre req sorted 1 0).2).map Prod.fst ∧
        p.2 < N ∧ xs p.1 p.2 = false := by
  obtain ⟨m, hm1, hm2, hm3, hm4, hm5⟩ := findViolPre_spec req sorted 1 0
  have hfp2 : (findViolPre req sorted 1 0).2 = m := by omega
  have hcond : (findViolPre req sorted 1 0).1 < req := by
    rcases hm5 with h | h
    · exact h
    · rw [hm3, one_mul, h, List.take_length,
        sorted_prod_eq_chainAvail N a xs nbSec sorted hperm]
      exact hviol
  have hsel : m ≤ sorted.length := hm2
  have hvio0 : (∏ s ∈ Finset.range m, (sorted.getD s dRec).2) < req := by
    rw [← take_map_prod sorted m hsel]
    have := hm3
    rw [one_mul] at this
    rw [← this]
    exact hcond
  have hnodup := sorted_fst_nodup N a xs nbSec sorted hperm
  have hinv := lift_inv N a req xs sorted m hnodup hsel _
    (liftInv_init N a req nbSec xs sorted m hperm hsel hvio0)
  obtain ⟨hL, hF, hC, hV, hM⟩ := hinv
  refine ⟨⟨lazyCutVars N
    (lift N a req (findViolPre req sorted 1 0).2 ⟨xs, sorted⟩)
    (findViolPre req sorted 1 0).2⟩, ?_, rfl, ⟨?_, ?_⟩, ?_⟩
  · unfold addLazyDemandSorted
    rw [if_pos hcond]
  · rw [hfp2, ← one_mul ((sorted.take m).map Prod.snd).prod, ← hm3]
    exact hcond
  · intro j hj
    rw [hfp2] at hj
    have := hm4 j hj
    rwa [one_mul] at this
  · intro p hp
    simp only at hp
    rw [hfp2] at hp
    rw [lazyCutVars_mem] at hp
    obtain ⟨s, hs, v, hv, hfalse, rfl⟩ := hp
    refine ⟨?_, hv, ?_⟩
    · rw [hfp2]
      simp only
      rw [hF s]
      exact List.mem_map.2 ⟨sorted.getD s dRec,
        getD_mem_take sorted s m hs hsel, rfl⟩
    · simp only
      by_contra hxs
      simp only [Bool.not_eq_false] at hxs
      rw [hM _ _ hxs] at hfalse
      exact absurd hfalse (by simp)

/-- The executable per-demand lazy step (insertion-sorted records)
also rejects every availability-violating candidate. -/
theorem addLazyDemand_rejects (N : ℕ) (a : ℕ → ℚ) (req : ℚ)
    (nbSec : ℕ) (xs : ℕ → ℕ → Bool)
    (hviol : chainAvail N a xs nbSec < req) :
    ∃ ng, addLazyDemand N a req nbSec xs = some ng := by
  unfold addLazyDemand addLazyDemandSorted
  have hperm : (sortAsc (secRecords N a xs nbSec)).Perm
      (secRecords N a xs nbSec) := sortAsc_perm _
  obtain ⟨m, hm1, hm2, hm3, hm4, hm5⟩ :=
    findViolPre_spec req (sortAsc (secRecords N a xs nbSec)) 1 0
  have hcond : (findViolPre req (sortAsc (secRecords N a xs nbSec))
      1 0).1 < req := by
    rcases hm5 with h | h
    · exact h
    · rw [hm3, one_mul, h, List.take_length,
        sorted_prod_eq_chainAvail N a xs nbSec _ hperm]
      exact hviol
  rw [if_pos hcond]
  exact ⟨_, rfl⟩

/-- C2 — `lift` places a position only when the chain stays strictly
below the requirement (the lift invariant), so the emitted lifted
nogood never rejects a truly feasible assignment: every 0/1 assignment
whose true chain availability meets the requirement sets at least one
variable of the nogood. -/
theorem lifted_nogood_sound (N : ℕ) (a : ℕ → ℚ) (req : ℚ) (nbSec : ℕ)
    (xs : ℕ → ℕ → Bool) (sorted : List (ℕ × ℚ)) (ng : Nogood)
    (hav : ∀ v < N, 0 ≤ a v ∧ a v ≤ 1)
    (hperm : sorted.Perm (secRecords N a xs nbSec))
    (hng : addLazyDemandSorted N a req xs sorted = some ng)
    (z : ℕ → ℕ → Bool) (hz : req ≤ chainAvail N a z nbSec) :
    ng.satBy z := by
  unfold addLazyDemandSorted at hng
  by_cases hcond : (findViolPre req sorted 1 0).1 < req
  case neg =>
    rw [if_neg hcond] at hng
    exact absurd hng (by simp)
  rw [if_pos hcond] at hng
  have hngv : ng = ⟨lazyCutVars N
      (lift N a req (findViolPre req sorted 1 0).2 ⟨xs, sorted⟩)
      (findViolPre req sorted 1 0).2⟩ := by
    cases hng
    rfl
  obtain ⟨m, hm1, hm2, hm3, hm4, hm5⟩ := findViolPre_spec req sorted 1 0
  have hfp2 : (findViolPre req sorted 1 0).2 = m := by omega
  have hsel : m ≤ sorted.length := hm2
  have hvio0 : (∏ s ∈ Finset.range m, (sorted.getD s dRec).2) < req := by
    rw [← take_map_prod sorted m hsel]
    have := hm3
    rw [one_mul] at this
    rw [← this]
    exact hcond
  have hnodup := sorted_fst_nodup N a xs nbSec sorted hperm
  have hinv := lift_inv N a req xs sorted m hnodup hsel _
    (liftInv_init N a req nbSec xs sorted m hperm hsel hvio0)
  obtain ⟨hL, hF, hC, hV, hM⟩ := hinv
  rw [hngv, hfp2]
  by_contra hns
  unfold Nogood.satBy at hns
  push_neg at hns
  have hsub : ∀ s, s < m → ∀ v', v' < N →
      z ((lift N a req m ⟨xs, sorted⟩).sa.getD s dRec).1 v' = true →
      (lift N a req m ⟨xs, sorted⟩).xs
        ((lift N a req m ⟨xs, sorted⟩).sa.getD s dRec).1 v' = true := by
    intro s hs v' hv' hzv
    by_contra hxf
    simp only [Bool.not_eq_true] at hxf
    have hpmem : (((lift N a req m ⟨xs, sorted⟩).sa.getD s dRec).1, v') ∈
        lazyCutVars N (lift N a req m ⟨xs, sorted⟩) m := by
      rw [lazyCutVars_mem]
      exact ⟨s, hs, v', hv', hxf, rfl⟩
    have := hns _ hpmem
    exact absurd hzv this
  have hprod1 : (∏ s ∈ Finset.range m,
      secAvail N a z ((lift N a req m ⟨xs, sorted⟩).sa.getD s dRec).1) ≤
      ∏ s ∈ Finset.range m,
        ((lift N a req m ⟨xs, sorted⟩).sa.getD s dRec).2 := by
    apply Finset.prod_le_prod
    · intro s _
      exact (secAvail_bounds N a z _ hav).1
    · intro s hsmem
      rw [hC s (Finset.mem_range.1 hsmem)]
      exact secAvail_mono N a z (lift N a req m ⟨xs, sorted⟩).xs _ _ hav
        (hsub s (Finset.mem_range.1 hsmem))
  have hinj : ∀ x ∈ Finset.range m, ∀ y ∈ Finset.range m,
      ((lift N a req m ⟨xs, sorted⟩).sa.getD x dRec).1 =
        ((lift N a req m ⟨xs, sorted⟩).sa.getD y dRec).1 → x = y := by
    intro x hx y hy hxy
    by_contra hne
    apply hnodup x y (lt_of_lt_of_le (Finset.mem_range.1 hx) hsel)
      (lt_of_lt_of_le (Finset.mem_range.1 hy) hsel) hne
    rw [← hF x, ← hF y]
    exact hxy
  have hsubset : (Finset.range m).image
      (fun s => ((lift N a req m ⟨xs, sorted⟩).sa.getD s dRec).1) ⊆
      Finset.range nbSec := by
    intro i hi
    simp only [Finset.mem_image] at hi
    obtain ⟨s, hsmem, rfl⟩ := hi
    have hslen : s < sorted.length :=
      lt_of_lt_of_le (Finset.mem_range.1 hsmem) hsel
    have hmem : sorted.getD s dRec ∈ secRecords N a xs nbSec :=
      hperm.subset (by
        rw [List.getD_eq_getElem _ _ hslen]
        exact List.getElem_mem hslen)
    simp only [secRecords, List.mem_map, List.mem_range] at hmem
    obtain ⟨i', hi', heq⟩ := hmem
    rw [hF s, ← heq]
    simpa using hi'
  have himg : (∏ i ∈ (Finset.range m).image
      (fun s => ((lift N a req m ⟨xs, sorted⟩).sa.getD s dRec).1),
      secAvail N a z i) =
      ∏ s ∈ Finset.range m,
        secAvail N a z
          ((lift N a req m ⟨xs, sorted⟩).sa.getD s dRec).1 :=
    Finset.prod_image hinj
  have hchain : chainAvail N a z nbSec ≤
      ∏ i ∈ (Finset.range m).image
        (fun s => ((lift N a req m ⟨xs, sorted⟩).sa.getD s dRec).1),
        secAvail N a z i := by
    unfold chainAvail
    rw [← Finset.prod_sdiff hsubset]
    have h1 : (∏ i ∈ Finset.range nbSec \ (Finset.range m).image
        (fun s => ((lift N a req m ⟨xs, sorted⟩).sa.getD s dRec).1),
        secAvail N a z i) ≤ 1 :=
      Finset.prod_le_one (fun i _ => (secAvail_bounds N a z i hav).1)
        (fun i _ => (secAvail_bounds N a z i hav).2)
    have h2 : 0 ≤ ∏ i ∈ (Finset.range m).image
        (fun s => ((lift N a req m ⟨xs, sorted⟩).sa.getD s dRec).1),
        secAvail N a z i :=
      Finset.prod_nonneg fun i _ => (secAvail_bounds N a z i hav).1
    exact mul_le_of_le_one_left h2 h1
  rw [himg] at hchain
  linarith

/-- Witness for C1 on a one-node, one-section demand whose candidate
assigns nothing: the chain availability `0` is below the requirement
`1/2` and a nogood is emitted. -/
theorem lazy_completeness_witness :
    chainAvail 1 aEx xsEx 1 < 1 / 2 ∧
    ∃ ng, addLazyDemandSorted 1 aEx (1 / 2) xsEx sortedEx = some ng := by
  have hviol : chainAvail 1 aEx xsEx 1 < 1 / 2 := by
    norm_num [chainAvail, secAvail, secFailProb, xsEx]
  refine ⟨hviol, ?_⟩
  obtain ⟨ng, hng, -⟩ := lazy_completeness 1 aEx (1 / 2) 1 xsEx sortedEx
    (List.Perm.refl _) hviol
  exact ⟨ng, hng⟩

/-- Witness for C2: on the same instance the emitted nogood is
satisfied by the full assignment, whose chain availability `1/2` meets
the requirement. -/
theorem lifted_nogood_sound_witness :
    (∀ v < 1, 0 ≤ aEx v ∧ aEx v ≤ 1) ∧
    (1 / 2 : ℚ) ≤ chainAvail 1 aEx zEx 1 ∧
    ∃ ng, addLazyDemandSorted 1 aEx (1 / 2) xsEx sortedEx = some ng ∧
      ng.satBy zEx := by
  have hav : ∀ v < 1, 0 ≤ aEx v ∧ aEx v ≤ 1 := by
    intro v _
    norm_num [aEx]
  have hz : (1 / 2 : ℚ) ≤ chainAvail 1 aEx zEx 1 := by
    norm_num [chainAvail, secAvail, secFailProb, aEx, zEx]
  have hsx : sortedEx = [(0, 0)] := by
    norm_num [sortedEx, secRecords, secAvail, secFailProb, xsEx,
      List.range_succ]
  have hcond : (findViolPre (1 / 2 : ℚ) sortedEx 1 0).1 < 1 / 2 := by
    rw [hsx]
    norm_num [findViolPre]
  have hng : addLazyDemandSorted 1 aEx (1 / 2) xsEx sortedEx =
      some ⟨lazyCutVars 1
        (lift 1 aEx (1 / 2) (findViolPre (1 / 2) sortedEx 1 0).2
          ⟨xsEx, sortedEx⟩)
        (findViolPre (1 / 2) sortedEx 1 0).2⟩ := by
    unfold addLazyDemandSorted
    simp only [if_pos hcond]
  refine ⟨hav, hz, _, hng, ?_⟩
  exact lifted_nogood_sound 1 aEx (1 / 2) 1 xsEx sortedEx _ hav
    (List.Perm.refl _) hng zEx hz

/-! ### Lemmas for the matheuristic capacity invariant -/

/-- `loadL` over a cons. -/
theorem loadL_cons (D : NetData) (xs : ℕ → ℕ → ℕ → Bool)
    (p : ℕ × ℕ) (l : List (ℕ × ℕ)) (v : ℕ) :
    loadL D xs (p :: l) v =
      (if xs p.1 p.2 v then D.reqCap p.1 p.2 else 0) + loadL D xs l v := by
  simp [loadL]

/-- `loadL` only reads the assignment at node `v`. -/
theorem loadL_congr (D : NetData) (xs ys : ℕ → ℕ → ℕ → Bool)
    (l : List (ℕ × ℕ)) (v : ℕ) (h : ∀ k i, xs k i v = ys k i v) :
    loadL D xs l v = loadL D ys l v := by
  unfold loadL
  congr 1
  apply List.map_congr_left
  intro p _
  rw [h p.1 p.2]

/-- `assignedLoad` only reads the assignment at node `v`. -/
theorem assignedLoad_congr (D : NetData) (xs ys : ℕ → ℕ → ℕ → Bool)
    (v : ℕ) (h : ∀ k i, xs k i v = ys k i v) :
    assignedLoad D xs v = assignedLoad D ys v :=
  loadL_congr D xs ys (demandSecPairs D) v h

/-- The placement loop of Phase I does not touch the assignment or
the remaining capacities. -/
theorem phase1yStep_fields (D : NetData) (r : RelaxInfo) (st : HeurSt)
    (p : ℕ × ℕ) :
    (phase1yStep D r st p).xSol = st.xSol ∧
    (phase1yStep D r st p).remCap = st.remCap := by
  simp only [phase1yStep]
  split <;> exact ⟨rfl, rfl⟩

/-- Folding the placement loop keeps the assignment and the remaining
capacities. -/
theorem phase1y_fold_fields (D : NetData) (r : RelaxInfo) :
    ∀ (l : List (ℕ × ℕ)) (st : HeurSt),
      (l.foldl (phase1yStep D r) st).xSol = st.xSol ∧
      (l.foldl (phase1yStep D r) st).remCap = st.remCap := by
  intro l
  induction l with
  | nil => intro st; exact ⟨rfl, rfl⟩
  | cons p rest ih =>
    intro st
    rw [List.foldl_cons]
    obtain ⟨h1, h2⟩ := ih (phase1yStep D r st p)
    obtain ⟨g1, g2⟩ := phase1yStep_fields D r st p
    exact ⟨h1.trans g1, h2.trans g2⟩

/-- An assignment step for node `v` leaves every other node alone. -/
theorem phase1xStep_other_node (D : NetData) (r : RelaxInfo) (v : ℕ)
    (st : HeurSt) (p : ℕ × ℕ) (w : ℕ) (h : w ≠ v) :
    (phase1xStep D r v st p).remCap w = st.remCap w ∧
    ∀ k i, (phase1xStep D r v st p).xSol k i w = st.xSol k i w := by
  simp only [phase1xStep]
  split
  · split
    · exact ⟨by simp [h], fun k i => by simp [h]⟩
    · exact ⟨rfl, fun k i => by simp [h]⟩
  · exact ⟨rfl, fun k i => by simp [h]⟩

/-- An assignment step for pair `p` leaves every other pair's value at
node `v` alone. -/
theorem phase1xStep_other_pair (D : NetData) (r : RelaxInfo) (v : ℕ)
    (st : HeurSt) (p q : ℕ × ℕ) (h : q ≠ p) :
    (phase1xStep D r v st p).xSol q.1 q.2 v = st.xSol q.1 q.2 v := by
  have hne : ¬ (q.1 = p.1 ∧ q.2 = p.2 ∧ v = v) := by
    rintro ⟨h1, h2, -⟩
    exact h (Prod.ext h1 h2)
  simp only [phase1xStep]
  split
  · split <;> (dsimp only; rw [if_neg hne])
  · dsimp only
    rw [if_neg hne]

/-- One assignment step decrements the node's remaining capacity by
exactly the load it assigns, and keeps it non-negative. -/
theorem phase1xStep_self (D : NetData) (r : RelaxInfo) (v : ℕ)
    (st : HeurSt) (p : ℕ × ℕ) (h0 : 0 ≤ st.remCap v) :
    0 ≤ (phase1xStep D r v st p).remCap v ∧
    (phase1xStep D r v st p).remCap v +
      (if (phase1xStep D r v st p).xSol p.1 p.2 v
       then D.reqCap p.1 p.2 else 0) = st.remCap v := by
  simp only [phase1xStep]
  split
  case isTrue hguard =>
    split
    · constructor
      · show 0 ≤ if v = v then st.remCap v - D.reqCap p.1 p.2
          else st.remCap v
        rw [if_pos rfl]
        linarith [hguard.2]
      · simp
    · constructor
      · exact h0
      · simp
  case isFalse =>
    constructor
    · exact h0
    · simp

/-- Folding the assignment loop over pairs not containing `q` keeps
`q`'s value at node `v`. -/
theorem phase1x_fold_other_pair (D : NetData) (r : RelaxInfo) (v : ℕ) :
    ∀ (l : List (ℕ × ℕ)) (st : HeurSt) (q : ℕ × ℕ), q ∉ l →
      (l.foldl (phase1xStep D r v) st).xSol q.1 q.2 v =
        st.xSol q.1 q.2 v := by
  intro l
  induction l with
  | nil => intro st q _; rfl
  | cons p rest ih =>
    intro st q hq
    rw [List.foldl_cons,
      ih _ q (fun hm => hq (List.mem_cons_of_mem p hm))]
    exact phase1xStep_other_pair D r v st p q
      (fun he => hq (he ▸ List.mem_cons_self p rest))

/-- Folding the assignment loop leaves other nodes alone. -/
theorem phase1x_fold_other_node (D : NetData) (r : RelaxInfo) (v : ℕ) :
    ∀ (l : List (ℕ × ℕ)) (st : HeurSt) (w : ℕ), w ≠ v →
      (l.foldl (phase1xStep D r v) st).remCap w = st.remCap w ∧
      ∀ k i, (l.foldl (phase1xStep D r v) st).xSol k i w =
        st.xSol k i w := by
  intro l
  induction l with
  | nil => intro st w _; exact ⟨rfl, fun _ _ => rfl⟩
  | cons p rest ih =>
    intro st w hw
    rw [List.foldl_cons]
    obtain ⟨h1, h2⟩ := ih (phase1xStep D r v st p) w hw
    obtain ⟨g1, g2⟩ := phase1xStep_other_node D r v st p w hw
    exact ⟨h1.trans g1, fun k i => (h2 k i).trans (g2 k i)⟩

/-- Exact accounting of the assignment loop over distinct pairs: the
final remaining capacity plus the load assigned over the processed
pairs equals the starting capacity, and stays non-negative. -/
theorem phase1x_fold_main (D : NetData) (r : RelaxInfo) (v : ℕ) :
    ∀ (l : List (ℕ × ℕ)), l.Nodup → ∀ st : HeurSt,
      0 ≤ st.remCap v →
      0 ≤ (l.foldl (phase1xStep D r v) st).remCap v ∧
      (l.foldl (phase1xStep D r v) st).remCap v +
        loadL D (l.foldl (phase1xStep D r v) st).xSol l v =
        st.remCap v := by
  intro l
  induction l with
  | nil =>
    intro _ st h0
    exact ⟨h0, by simp [loadL]⟩
  | cons p rest ih =>
    intro hnodup st h0
    obtain ⟨hp, hrest⟩ := List.nodup_cons.1 hnodup
    rw [List.foldl_cons]
    obtain ⟨g0, g1⟩ := phase1xStep_self D r v st p h0
    obtain ⟨i0, i1⟩ := ih hrest (phase1xStep D r v st p) g0
    refine ⟨i0, ?_⟩
    have hxp : (rest.foldl (phase1xStep D r v)
          (phase1xStep D r v st p)).xSol p.1 p.2 v =
        (phase1xStep D r v st p).xSol p.1 p.2 v :=
      phase1x_fold_other_pair D r v rest _ p hp
    rw [loadL_cons, hxp]
    linarith

/-- The `(demand, section)` pairs are pairwise distinct. -/
theorem demandSecPairs_nodup (D : NetData) :
    (demandSecPairs D).Nodup := by
  rw [demandSecPairs, List.nodup_flatMap]
  constructor
  · intro k _
    refine (List.nodup_range _).map ?_
    intro i j hij
    simpa using congrArg Prod.snd hij
  · have hlt : List.Pairwise (· < ·) (List.range D.nbDemands) :=
      List.pairwise_lt_range D.nbDemands
    apply hlt.imp
    intro k k' hkk'
    intro x hx hx'
    simp only [List.mem_map, List.mem_range] at hx hx'
    obtain ⟨i, _, rfl⟩ := hx
    obtain ⟨i', _, heq⟩ := hx'
    have : k' = k := congrArg Prod.fst heq
    omega

/-- The per-node block of Phase I yields exact capacity accounting at
its own node. -/
theorem phase1NodeBlock_self (D : NetData) (r : RelaxInfo)
    (st : HeurSt) (v : ℕ) (hcap : 0 ≤ D.cap v) :
    0 ≤ (phase1NodeBlock D r st v).remCap v ∧
    (phase1NodeBlock D r st v).remCap v +
      assignedLoad D (phase1NodeBlock D r st v).xSol v = D.cap v := by
  unfold phase1NodeBlock
  obtain ⟨h1, h2⟩ := phase1x_fold_main D r v (demandSecPairs D)
    (demandSecPairs_nodup D)
    { st with remCap := fun w => if w = v then D.cap v else st.remCap w }
    (by simpa using hcap)
  refine ⟨h1, ?_⟩
  show _ + loadL D _ (demandSecPairs D) v = D.cap v
  rw [h2]
  simp

/-- The per-node block of Phase I leaves other nodes alone. -/
theorem phase1NodeBlock_other (D : NetData) (r : RelaxInfo)
    (st : HeurSt) (v w : ℕ) (h : w ≠ v) :
    (phase1NodeBlock D r st v).remCap w = st.remCap w ∧
    ∀ k i, (phase1NodeBlock D r st v).xSol k i w = st.xSol k i w := by
  unfold phase1NodeBlock
  obtain ⟨h1, h2⟩ := phase1x_fold_other_node D r v (demandSecPairs D)
    { st with remCap := fun u => if u = v then D.cap v else st.remCap u }
    w h
  exact ⟨h1.trans (by simp [h]), fun k i => h2 k i⟩

/-- Once a node's block has run, later blocks keep its capacity
accounting. -/
theorem phase1_nodeFold_prop (D : NetData) (r : RelaxInfo) :
    ∀ (L : List ℕ) (st : HeurSt) (v : ℕ), v ∈ L → 0 ≤ D.cap v →
      0 ≤ (L.foldl (phase1NodeBlock D r) st).remCap v ∧
      (L.foldl (phase1NodeBlock D r) st).remCap v +
        assignedLoad D (L.foldl (phase1NodeBlock D r) st).xSol v =
        D.cap v := by
  intro L
  induction L with
  | nil => intro st v hv; cases hv
  | cons u rest ih =>
    intro st v hv hcap
    rw [List.foldl_cons]
    by_cases hvrest : v ∈ rest
    · exact ih _ v hvrest hcap
    · have hvu : v = u := by
        rcases List.mem_cons.1 hv with h | h
        · exact h
        · exact absurd h hvrest
      subst hvu
      obtain ⟨h1, h2⟩ := phase1NodeBlock_self D r st v hcap
      have hpres : ∀ (l : List ℕ) (st' : HeurSt), v ∉ l →
          (l.foldl (phase1NodeBlock D r) st').remCap v = st'.remCap v ∧
          ∀ k i, (l.foldl (phase1NodeBlock D r) st').xSol k i v =
            st'.xSol k i v := by
        intro l
        induction l with
        | nil => intro st' _; exact ⟨rfl, fun _ _ => rfl⟩
        | cons u' rest' ih' =>
          intro st' hnm
          rw [List.foldl_cons]
          have hne : v ≠ u' :=
            fun he => hnm (he ▸ List.mem_cons_self u' rest')
          obtain ⟨q1, q2⟩ := ih' (phase1NodeBlock D r st' u')
            (fun hm => hnm (List.mem_cons_of_mem _ hm))
          obtain ⟨p1, p2⟩ := phase1NodeBlock_other D r st' u' v hne
          exact ⟨q1.trans p1, fun k i => (q2 k i).trans (p2 k i)⟩
      obtain ⟨r1, r2⟩ := hpres rest (phase1NodeBlock D r st v) hvrest
      refine ⟨r1 ▸ h1, ?_⟩
      rw [r1]
      have hload : assignedLoad D
          ((rest.foldl (phase1NodeBlock D r)
            (phase1NodeBlock D r st v))).xSol v =
          assignedLoad D (phase1NodeBlock D r st v).xSol v :=
        loadL_congr D _ _ (demandSecPairs D) v r2
      rw [hload]
      exact h2

/-- Phase I establishes the capacity invariant (with equality). -/
theorem runHeuristic_Phase_I_cap (D : NetData) (r : RelaxInfo)
    (st : HeurSt) (hcap : ∀ v < D.nbNodes, 0 ≤ D.cap v) :
    CapInv D (runHeuristic_Phase_I D r st) := by
  intro v hv
  have h := phase1_nodeFold_prop D r (List.range D.nbNodes)
    (((List.range D.nbNodes).flatMap fun w =>
      (List.range D.nbVnfs).map fun f => (w, f)).foldl (phase1yStep D r)
      { st with objSol := 0 }) v (List.mem_range.2 hv) (hcap v hv)
  exact ⟨h.1, le_of_eq h.2⟩

/-- Fold invariant preservation with an explicit predicate. -/
theorem foldl_pres {α β : Type} (P : β → Prop) (f : β → α → β) :
    ∀ (l : List α) (b : β), P b →
      (∀ b x, x ∈ l → P b → P (f b x)) → P (l.foldl f b) := by
  intro l
  induction l with
  | nil => intro b hb _; exact hb
  | cons x xs ih =>
    intro b hb hstep
    rw [List.foldl_cons]
    exact ih _ (hstep b x (List.mem_cons_self x xs) hb)
      (fun b' y hy => hstep b' y (List.mem_cons_of_mem x hy))

/-- One examination step either keeps the selected node or selects
the examined, capacity-feasible node. -/
theorem gntiStep_sel (D : NetData) (st : HeurSt) (f k : ℕ)
    (b : Option ℕ × Option ℚ × ℚ) (x : ℕ) :
    (gntiStep D st f k b x).1 = b.1 ∨
    ((gntiStep D st f k b x).1 = some x ∧
      (D.demand k).bandwidth * D.consumption f ≤ st.remCap x) := by
  unfold gntiStep
  by_cases hg : (D.demand k).bandwidth * D.consumption f ≤ st.remCap x
  · rw [if_pos hg]
    cases hsel : b.2.1 with
    | none => right; exact ⟨rfl, hg⟩
    | some m =>
      dsimp only
      split
      · split
        · right; exact ⟨rfl, hg⟩
        · split
          · right; exact ⟨rfl, hg⟩
          · left; rfl
      · left; rfl
  · rw [if_neg hg]
    left
    rfl

/-- A node returned by `getNodeToInstall` carries the required
capacity and is a real node. -/
theorem getNodeToInstall_spec (D : NetData) (st : HeurSt) (f k v : ℕ)
    (h : getNodeToInstall D st f k = some v) :
    (D.demand k).bandwidth * D.consumption f ≤ st.remCap v ∧
      v < D.nbNodes := by
  have key : ∀ w : ℕ,
      ((List.range D.nbNodes).foldl (gntiStep D st f k)
        (none, none, 0)).1 = some w →
      (D.demand k).bandwidth * D.consumption f ≤ st.remCap w ∧
        w < D.nbNodes := by
    refine foldl_pres (fun b => ∀ w : ℕ, b.1 = some w →
        (D.demand k).bandwidth * D.consumption f ≤ st.remCap w ∧
          w < D.nbNodes)
      (gntiStep D st f k) (List.range D.nbNodes) (none, none, 0) ?_ ?_
    · intro w hw
      cases hw
    · intro b x hxmem hb w hw
      rcases gntiStep_sel D st f k b x with hkeep | ⟨hset, hg⟩
      · rw [hkeep] at hw
        exact hb w hw
      · rw [hset] at hw
        cases hw
        exact ⟨hg, List.mem_range.1 hxmem⟩
  exact key v h

/-- Re-assigning a pair adds at most its requirement to the load of
distinct pairs. -/
theorem loadL_update_le (D : NetData) (xs : ℕ → ℕ → ℕ → Bool)
    (k i v : ℕ) (hreq : 0 ≤ D.reqCap k i) :
    ∀ l : List (ℕ × ℕ), l.Nodup →
      loadL D (fun k' i' v' =>
        if k' = k ∧ i' = i ∧ v' = v then true else xs k' i' v') l v ≤
      loadL D xs l v + D.reqCap k i := by
  intro l
  induction l with
  | nil =>
    intro _
    simpa [loadL] using hreq
  | cons p rest ih =>
    intro hnodup
    obtain ⟨hp, hrest⟩ := List.nodup_cons.1 hnodup
    rw [loadL_cons, loadL_cons]
    by_cases hpk : p.1 = k ∧ p.2 = i
    · have hrest_eq : loadL D (fun k' i' v' =>
          if k' = k ∧ i' = i ∧ v' = v then true else xs k' i' v')
            rest v = loadL D xs rest v := by
        unfold loadL
        congr 1
        apply List.map_congr_left
        intro q hq
        have hqp : q ≠ p := fun he => hp (he ▸ hq)
        have hcond : ¬ (q.1 = k ∧ q.2 = i) := by
          rintro ⟨a, b⟩
          exact hqp (Prod.ext (a.trans hpk.1.symm) (b.trans hpk.2.symm))
        simp [hcond]
      rw [hrest_eq]
      have hnew : (if (fun k' i' v' =>
          if k' = k ∧ i' = i ∧ v' = v then true else xs k' i' v')
            p.1 p.2 v then D.reqCap p.1 p.2 else 0) =
          D.reqCap k i := by
        have hcond : p.1 = k ∧ p.2 = i ∧ v = v := ⟨hpk.1, hpk.2, rfl⟩
        simp only [hcond, and_self, if_true, hpk.1, hpk.2]
      have hold : 0 ≤ (if xs p.1 p.2 v then D.reqCap p.1 p.2 else 0) := by
        rw [hpk.1, hpk.2]
        split
        · exact hreq
        · exact le_refl 0
      rw [hnew]
      linarith
    · have hcond : ¬ (p.1 = k ∧ p.2 = i ∧ v = v) := by
        rintro ⟨a, b, -⟩
        exact hpk ⟨a, b⟩
      have hhead : (if (fun k' i' v' =>
          if k' = k ∧ i' = i ∧ v' = v then true else xs k' i' v')
            p.1 p.2 v then D.reqCap p.1 p.2 else 0) =
          (if xs p.1 p.2 v then D.reqCap p.1 p.2 else 0) := by
        simp [hpk]
      rw [hhead]
      have := ih hrest
      linarith

/-- Assigning a capacity-feasible pair preserves the capacity
invariant. -/
theorem capInv_assign (D : NetData) (st : HeurSt) (k i v : ℕ)
    (hreq : ∀ k' i', 0 ≤ D.reqCap k' i')
    (hguard : D.reqCap k i ≤ st.remCap v)
    (h : CapInv D st) :
    CapInv D { st with
      xSol := fun k' i' v' =>
        if k' = k ∧ i' = i ∧ v' = v then true else st.xSol k' i' v'
      remCap := fun v' =>
        if v' = v then st.remCap v - D.reqCap k i else st.remCap v' } := by
  intro w hw
  dsimp only
  by_cases hwv : w = v
  · subst hwv
    rw [if_pos rfl]
    obtain ⟨h0, hcap⟩ := h w hw
    have hupd := loadL_update_le D st.xSol k i w (hreq k i)
      (demandSecPairs D) (demandSecPairs_nodup D)
    have hle : assignedLoad D (fun k' i' v' =>
        if k' = k ∧ i' = i ∧ v' = w then true else st.xSol k' i' v') w ≤
        assignedLoad D st.xSol w + D.reqCap k i := hupd
    exact ⟨by linarith, by linarith⟩
  · rw [if_neg hwv]
    obtain ⟨h0, hcap⟩ := h w hw
    refine ⟨h0, ?_⟩
    have heq : assignedLoad D (fun k' i' v' =>
        if k' = k ∧ i' = i ∧ v' = v then true else st.xSol k' i' v') w =
        assignedLoad D st.xSol w := by
      apply assignedLoad_congr
      intro k' i'
      have hc : ¬ (k' = k ∧ i' = i ∧ w = v) := by
        rintro ⟨-, -, hcv⟩
        exact hwv hcv
      rw [if_neg hc]
    rw [heq]
    exact hcap

/-- The capacity invariant only reads capacities and assignments. -/
theorem capInv_of_eq (D : NetData) (st st' : HeurSt)
    (hrc : st'.remCap = st.remCap) (hx : st'.xSol = st.xSol)
    (h : CapInv D st) : CapInv D st' := by
  intro w hw
  rw [hrc, hx]
  exact h w hw

/-- The repair loop of Phase II preserves the capacity invariant. -/
theorem phase2Demand_inv (D : NetData) (k : ℕ)
    (hreq : ∀ k' i', 0 ≤ D.reqCap k' i') :
    ∀ (fuel : ℕ) (st : HeurSt), CapInv D st →
      CapInv D (phase2Demand D k fuel st).2 := by
  intro fuel
  induction fuel with
  | zero => intro st h; exact h
  | succ fuel ih =>
    intro st h
    simp only [phase2Demand]
    split
    · cases hgn : getNodeToInstall D st
        ((D.demand k).vnfs.getD
          (getSolutionAvail_k D st.xSol k).2.toNat 0) k with
      | none => exact h
      | some v =>
        apply ih
        obtain ⟨hguard, hvN⟩ := getNodeToInstall_spec D st _ k v hgn
        have hst' := capInv_assign D st k
          (getSolutionAvail_k D st.xSol k).2.toNat v hreq hguard h
        split
        · exact hst'
        · exact capInv_of_eq D _ _ rfl rfl hst'
    · exact h

set_option maxHeartbeats 1000000 in
/-- Phase II preserves the capacity invariant across demands. -/
theorem runHeuristic_Phase_II_inv (D : NetData) (fuel : ℕ)
    (hreq : ∀ k i, 0 ≤ D.reqCap k i) (st : HeurSt)
    (hinv : CapInv D st) :
    CapInv D (runHeuristic_Phase_II D fuel st).2 := by
  unfold runHeuristic_Phase_II
  refine foldl_pres (fun acc => CapInv D acc.2)
    (fun acc k => if acc.1 then phase2Demand D k fuel acc.2 else acc)
    (List.range D.nbDemands) (true, st) hinv ?_
  intro b x _ hb
  dsimp only
  split
  · exact phase2Demand_inv D x hreq fuel b.2 hb
  · exact hb

/-- C3 — throughout the matheuristic the remaining capacity of every
node stays non-negative: Phase I assigns a pair only under the
capacity guard and decrements by exactly the pair's requirement (an
exact accounting), and every Phase II repair step is guarded by
`getNodeToInstall`'s capacity test; consequently, after construction
(for any number of repair steps, hence at every intermediate point of
the repair loop) the total `bandwidth × consumption` load of the
pairs assigned to a node never exceeds its capacity. -/
theorem matheuristic_capacity_safety (D : NetData) (r : RelaxInfo)
    (st : HeurSt) (fuel : ℕ)
    (hcap : ∀ v < D.nbNodes, 0 ≤ D.cap v)
    (hreq : ∀ k i, 0 ≤ D.reqCap k i) :
    CapInv D (runHeuristic_Phase_I D r st) ∧
    CapInv D (runHeuristic_Phase_II D fuel
      (runHeuristic_Phase_I D r st)).2 ∧
    ∀ v < D.nbNodes,
      assignedLoad D (runHeuristic_Phase_II D fuel
        (runHeuristic_Phase_I D r st)).2.xSol v ≤ D.cap v := by
  have h1 := runHeuristic_Phase_I_cap D r st hcap
  have h2 := runHeuristic_Phase_II_inv D fuel hreq _ h1
  refine ⟨h1, h2, fun v hv => ?_⟩
  obtain ⟨ha, hb⟩ := h2 v hv
  linarith

/-- Witness for C3 on the trivial instance. -/
theorem matheuristic_capacity_safety_witness :
    (∀ v < D0.nbNodes, 0 ≤ D0.cap v) ∧ (∀ k i, 0 ≤ D0.reqCap k i) ∧
    CapInv D0 (runHeuristic_Phase_I D0 r0 st0.heur) := by
  have hcap : ∀ v < D0.nbNodes, 0 ≤ D0.cap v := by
    intro v hv
    simp [D0] at hv
  have hreq : ∀ k i, 0 ≤ D0.reqCap k i := by
    intro k i
    simp [NetData.reqCap, D0, NetData.demand, dSfc]
  exact ⟨hcap, hreq,
    (matheuristic_capacity_safety D0 r0 st0.heur 0 hcap hreq).1⟩

end FiveG
